import Mathlib

/-!
# Verification of the yelm context-file discovery engine

Shallow embedding of the core services of the repository:
`directoryScanner.ts`, `contextFilePatterns.ts`, `contextFileDiscovery.ts`,
`contextFileManager.ts` and `migrationService.ts`, together with proofs and
refutations of the specification's claims about them.

Modelling conventions:
* A filesystem is an immutable snapshot: a tree of `FsNode`s.  Absolute,
  normalized paths are lists of segments (`DirPath`); `/` is `[]`.
  `path.dirname` is `List.dropLast`, `path.join` appends segments.
* `fs.stat` succeeds exactly when a node exists at the path.  `fs.readdir`
  and `fs.readFile` additionally require the node's `readable` flag
  (permission errors on those calls are what the code recovers from).
* JavaScript `Map`s are association lists in insertion order, JS `Set`s are
  lists deduplicated on insertion; `Array.prototype.sort` (stable, ES2019+)
  is a stable insertion sort over the same comparator.
* `Date.now()` is an explicit `now : Nat` argument; `homedir()` is an
  explicit `home : DirPath` argument.
* Thrown JS errors are `Except` values carrying the constructor name,
  message and optional `code` field of the thrown object.
* Wall-clock `duration` fields are not modelled.
-/

namespace Yelm

/-- An absolute, normalized filesystem path, as its list of segments
(`[]` is the root `/`). -/
abbrev DirPath := List String

/-- `path.dirname`: parent directory; the root is its own parent. -/
def parentDir (p : DirPath) : DirPath := p.dropLast

/-- `path.basename`; the basename of the root is the empty string. -/
def baseName (p : DirPath) : String := p.getLastD ""

/-- Render a path the way Node's `path` module prints absolute posix
paths. -/
def DirPath.render (p : DirPath) : String := "/" ++ String.intercalate "/" p

/-- Length of the longest common prefix of two segment lists. -/
def commonPrefixLen : DirPath → DirPath → Nat
  | a :: as, b :: bs => if a = b then commonPrefixLen as bs + 1 else 0
  | _, _ => 0

/-- `path.relative(from, to)` for absolute normalized posix paths: strip the
common prefix, go up once per remaining `from` segment, then descend. -/
def relPath (f t : DirPath) : String :=
  let k := commonPrefixLen f t
  String.intercalate "/" (List.replicate (f.length - k) ".." ++ t.drop k)

/-- `s.endsWith(suffix)` on rendered paths (used by the fallback upward
walk to skip global directories). -/
def endsWithStr (s sfx : String) : Bool :=
  List.isSuffixOf sfx.data s.data

/-- A node of the modelled filesystem tree. -/
inductive FsNode where
  | file (mtime : Nat) (sz : Nat) (content : String) (readable : Bool)
  | dir (mtime : Nat) (readable : Bool) (entries : List (String × FsNode))

/-- Modification time reported by `fs.stat`. -/
def FsNode.mtimeOf : FsNode → Nat
  | .file m _ _ _ => m
  | .dir m _ _ => m

/-- `stats.isDirectory()`. -/
def FsNode.isDirB : FsNode → Bool
  | .file .. => false
  | .dir .. => true

/-- `stats.isFile()`. -/
def FsNode.isFileB : FsNode → Bool
  | .file .. => true
  | .dir .. => false

/-- The `readable` permission bit of a node (`R_OK`). -/
def FsNode.readableB : FsNode → Bool
  | .file _ _ _ r => r
  | .dir _ r _ => r

/-- Walk the tree along a path. -/
def FsNode.find : FsNode → DirPath → Option FsNode
  | n, [] => some n
  | .file .., _ :: _ => none
  | .dir _ _ es, s :: rest =>
    match es.find? (fun e => e.fst = s) with
    | some e => e.snd.find rest
    | none => none

/-- `fs.access(p, R_OK)` succeeds: the node exists and is readable. -/
def accessOk (fs : FsNode) (p : DirPath) : Bool :=
  match fs.find p with
  | some n => n.readableB
  | none => false

/-- `fs.readFile(p, 'utf-8')` result: requires an existing readable file. -/
def readFileContent (fs : FsNode) (p : DirPath) : Option String :=
  match fs.find p with
  | some (.file _ _ c true) => some c
  | _ => none

-- Structural size of a filesystem subtree (used as the scan loop's fuel:
-- it strictly bounds the number of BFS iterations).
mutual
def FsNode.size : FsNode → Nat
  | .file .. => 1
  | .dir _ _ es => 1 + FsNode.sizeList es

def FsNode.sizeList : List (String × FsNode) → Nat
  | [] => 0
  | (_, c) :: es => FsNode.size c + FsNode.sizeList es
end

-- Well-formedness: directory entry names are unique within each directory,
-- as on a real filesystem.
mutual
def wfNode : FsNode → Bool
  | .file .. => true
  | .dir _ _ es => distinctNames (es.map Prod.fst) && wfList es

def wfList : List (String × FsNode) → Bool
  | [] => true
  | (_, c) :: es => wfNode c && wfList es

def distinctNames : List String → Bool
  | [] => true
  | x :: xs => !xs.contains x && distinctNames xs
end

/-- A thrown JavaScript error: its constructor name, message, and the
optional `code` field (`ContextFileError` instances carry a code). -/
structure JsError where
  name : String
  message : String
  code : Option String
deriving DecidableEq, Repr

instance {ε α : Type} [DecidableEq ε] [DecidableEq α] :
    DecidableEq (Except ε α)
  | .ok x, .ok y => decidable_of_iff (x = y) (by simp)
  | .ok _, .error _ => isFalse (by simp)
  | .error _, .ok _ => isFalse (by simp)
  | .error e, .error f => decidable_of_iff (e = f) (by simp)

/-- The error `fs.stat` throws for a missing path. -/
def enoentError (p : DirPath) : JsError :=
  ⟨"Error", "ENOENT: no such file or directory, stat " ++ p.render, some "ENOENT"⟩

/-- `new ContextFileError(message, code)` from `contextFileDiscovery.ts`. -/
def contextFileError (message code : String) : JsError :=
  ⟨"ContextFileError", message, some code⟩

/-! ## Pattern registry (`contextFilePatterns.ts`) -/

/-- Split a hierarchy pattern on `/` (structural version of
`String.splitOn "/"`). -/
def splitSegs (pat : String) : List String :=
  (pat.data.foldr
    (fun c (acc : List (List Char)) =>
      if c = '/' then [] :: acc
      else match acc with
        | seg :: rest => (c :: seg) :: rest
        | [] => [[c]])
    [[]]).map (fun seg => ⟨seg⟩)

/-- `DEFAULT_CONTEXT_HIERARCHY`. -/
def DEFAULT_CONTEXT_HIERARCHY : List String :=
  ["agents.md", "CLAUDE.md", "GEMINI.md", ".cursor/rules"]

/-- `resolveContextFilePath(pattern, directory)`.  Every entry of
`STANDARD_CONTEXT_PATTERNS` resolves to `path.join(directory, ...segments)`
(the special `.cursor/rules` entry joins the two nested segments), and
unknown patterns fall back to `path.join(directory, pattern)`; both are the
segment-wise concatenation below. -/
def resolveContextFilePath (pattern : String) (directory : DirPath) : DirPath :=
  directory ++ splitSegs pattern

/-- `getPatternPriority` (unknown patterns get 999). -/
def getPatternPriority (pattern : String) : Int :=
  if pattern = "agents.md" then 1
  else if pattern = "CLAUDE.md" then 2
  else if pattern = "GEMINI.md" then 3
  else if pattern = ".cursor/rules" then 4
  else 999

/-! ## Directory scanner (`directoryScanner.ts`) -/

/-- `ScanOptions` (the gitignore oracle `fileService` is the caller's
`shouldGitIgnoreFile` predicate). -/
structure ScanOptions where
  maxDepth : Nat
  maxDirs : Nat
  ignorePatterns : List String
  fileService : Option (DirPath → Bool)

/-- `FileInfo`. -/
structure FileInfo where
  path : DirPath
  name : String
  directory : DirPath
  relativePath : String
  lastModified : Nat
  sizeBytes : Nat
  depth : Nat
deriving DecidableEq, Repr

/-- `ScanResult` (minus the wall-clock `duration`). -/
structure ScanResult where
  files : List FileInfo
  directoriesScanned : Nat
  filesFound : Nat
  limitReached : Bool
deriving DecidableEq, Repr

/-- `Array.prototype.includes('*')` on the pattern, then either the
unanchored `RegExp(pattern.replace(/\x2a/g, '.*')).test(basename)` or the
exact comparison `basename === pattern`.  The regex built this way matches
iff the literal chunks between the stars occur in `basename` in order. -/
def globChunksMatch : List Char → List (List Char) → Bool
  | _, [] => true
  | s, chunk :: chunks =>
    match dropThroughOccur s chunk with
    | some rest => globChunksMatch rest chunks
    | none => false
where
  /-- Drop everything up to and including the earliest occurrence of
  `chunk`; earliest is enough because later chunks only need a suffix. -/
  dropThroughOccur : List Char → List Char → Option (List Char)
    | s, chunk =>
      if headAgrees s chunk then some (s.drop chunk.length)
      else match s with
        | [] => none
        | _ :: t => dropThroughOccur t chunk
  /-- `chunk` sits at the head of `s`. -/
  headAgrees : List Char → List Char → Bool
    | _, [] => true
    | [], _ :: _ => false
    | a :: as, b :: bs => a = b && headAgrees as bs

/-- Split a glob pattern on `*` into its literal chunks. -/
def globChunks (pat : String) : List (List Char) :=
  pat.data.foldr
    (fun c (acc : List (List Char)) =>
      if c = '*' then [] :: acc
      else match acc with
        | chunk :: rest => (c :: chunk) :: rest
        | [] => [[c]])
    [[]]

/-- `DirectoryScanner.shouldIgnoreDirectory`. -/
def shouldIgnoreDirectory (d : DirPath) (ignorePatterns : List String) : Bool :=
  let base := baseName d
  ignorePatterns.any fun pat =>
    if pat.data.contains '*' then globChunksMatch base.data (globChunks pat)
    else base = pat

/-- The optional gitignore oracle applied to a path
(`options.fileService?.shouldGitIgnoreFile(p)`; absent oracle → falsy). -/
def gitIgnored (opts : ScanOptions) (p : DirPath) : Bool :=
  match opts.fileService with
  | some oracle => oracle p
  | none => false

/-- `DirectoryScanner.createFileInfo` for a file node found at `p` while
scanning directory depth `depth` (its `fs.stat` always succeeds in the
model, so the only skip is the gitignore oracle). -/
def createFileInfo (opts : ScanOptions) (rootDir p : DirPath) (n : FsNode)
    (depth : Nat) : Option FileInfo :=
  if gitIgnored opts p then none
  else some
    { path := p
      name := baseName p
      directory := parentDir p
      relativePath := relPath rootDir p
      lastModified := n.mtimeOf
      sizeBytes := match n with | .file _ s _ _ => s | .dir .. => 0
      depth := depth }

/-- One entry of the scanner's breadth-first queue.  The code queues the
resolved path; since the filesystem snapshot is immutable the entry also
carries the subtree rooted there (what `fs.readdir` of that path sees). -/
structure QEntry where
  path : DirPath
  node : FsNode
  depth : Nat

/-- The subtrees queued for that entry's children (only subdirectories are
queued, in `readdir` order). -/
def childEntries (p : DirPath) (es : List (String × FsNode)) (depth : Nat) :
    List QEntry :=
  es.filterMap fun e =>
    if e.snd.isDirB then some ⟨p ++ [e.fst], e.snd, depth + 1⟩ else none

/-- The files of a scanned directory, in `readdir` order. -/
def childFiles (opts : ScanOptions) (rootDir p : DirPath)
    (es : List (String × FsNode)) (depth : Nat) : List FileInfo :=
  es.filterMap fun e =>
    if e.snd.isFileB then createFileInfo opts rootDir (p ++ [e.fst]) e.snd depth
    else none

/-- Total structural size of the queued subtrees; it strictly decreases on
every iteration of the scan loop, so it doubles as the loop's fuel. -/
def queueSize (q : List QEntry) : Nat :=
  (q.map fun e => e.node.size).sum

/-- The scanner's `while (queue.length > 0 && directoriesScanned <
options.maxDirs)` loop, structurally recursive on fuel (any fuel of at
least `queueSize queue` computes the loop's fixpoint; the wrapper passes
exactly that).  Returns the collected files and the final
`directoriesScanned` counter. -/
def scanLoop (opts : ScanOptions) (rootDir : DirPath) :
    Nat → List QEntry → List DirPath → Nat → List FileInfo →
    List FileInfo × Nat
  | _, [], _, scanned, acc => (acc, scanned)
  | 0, _ :: _, _, scanned, acc => (acc, scanned)
  | fuel + 1, e :: rest, visited, scanned, acc =>
    if scanned < opts.maxDirs then
      -- skip if already visited (cycle guard)
      if visited.contains e.path then
        scanLoop opts rootDir fuel rest visited scanned acc
      else
        let visited' := e.path :: visited
        -- depth limit
        if opts.maxDepth < e.depth then
          scanLoop opts rootDir fuel rest visited' scanned acc
        -- ignored basename
        else if shouldIgnoreDirectory e.path opts.ignorePatterns then
          scanLoop opts rootDir fuel rest visited' scanned acc
        -- gitignored directory
        else if gitIgnored opts e.path then
          scanLoop opts rootDir fuel rest visited' scanned acc
        else
          match e.node with
          | .dir _ true es =>
            scanLoop opts rootDir fuel
              (rest ++ childEntries e.path es e.depth) visited' (scanned + 1)
              (acc ++ childFiles opts rootDir e.path es e.depth)
          | _ =>
            -- `fs.readdir` failed (unreadable): warn and continue scanning
            scanLoop opts rootDir fuel rest visited' (scanned + 1) acc
    else (acc, scanned)

/-- `DirectoryScanner.scanDirectory`.  Fails only when the initial
`fs.stat(rootDir)` fails (the error is rethrown) or the root is not a
directory (`throw new Error(...)` — a plain `Error`, not a
`ContextFileError`). -/
def scanDirectory (fs : FsNode) (rootDir : DirPath) (opts : ScanOptions) :
    Except JsError ScanResult :=
  match fs.find rootDir with
  | none => .error (enoentError rootDir)
  | some n =>
    if n.isDirB then
      let out := scanLoop opts rootDir n.size [⟨rootDir, n, 0⟩] [] 0 []
      .ok
        { files := out.1
          directoriesScanned := out.2
          filesFound := out.1.length
          limitReached := decide (opts.maxDirs ≤ out.2) }
    else
      .error ⟨"Error", "Root path is not a directory: " ++ rootDir.render, none⟩

/-- `FileIndex`: the three grouping maps plus the flat list.  JS `Map`s
iterate in key-insertion order, so each map is an association list whose
keys appear in order of first occurrence and whose group lists preserve
scan order. -/
structure FileIndex where
  byName : List (String × List FileInfo)
  byDirectory : List (DirPath × List FileInfo)
  byDepth : List (Nat × List FileInfo)
  all : List FileInfo
deriving Repr

/-- Append `f` to the group of key `k`, creating the group at the end on
first occurrence (JS `Map.get`/`push`/`set` pattern). -/
def insGroup {κ : Type} [DecidableEq κ] :
    List (κ × List FileInfo) → κ → FileInfo → List (κ × List FileInfo)
  | [], k, f => [(k, [f])]
  | (k', fs) :: rest, k, f =>
    if k' = k then (k', fs ++ [f]) :: rest else (k', fs) :: insGroup rest k f

/-- `DirectoryScanner.buildFileIndex`. -/
def buildFileIndex (scanResult : ScanResult) : FileIndex :=
  let step := fun (idx : FileIndex) (f : FileInfo) =>
    { byName := insGroup idx.byName f.name f
      byDirectory := insGroup idx.byDirectory f.directory f
      byDepth := insGroup idx.byDepth f.depth f
      all := idx.all }
  { scanResult.files.foldl step ⟨[], [], [], []⟩ with all := scanResult.files }

/-- `Array.prototype.indexOf` on a string array: the index, or `-1`. -/
def jsIndexOf (l : List String) (s : String) : Int :=
  match l.indexOf? s with
  | some i => (i : Int)
  | none => -1

/-- `Number.MAX_SAFE_INTEGER`. -/
def MAX_SAFE_INTEGER : Int := 2 ^ 53 - 1

/-- The inner loop of `ContextFileScanner.findContextFiles`: the file of
the directory whose name has the lowest hierarchy index (`-1` = not a
context file; ties cannot arise as the scan visits each file once). -/
def bestContextFile (hier : List String) (files : List FileInfo) :
    Option FileInfo :=
  (files.foldl
    (fun (best : Option FileInfo × Int) f =>
      let priority := jsIndexOf hier f.name
      if priority ≠ -1 ∧ priority < best.snd then (some f, priority) else best)
    (none, MAX_SAFE_INTEGER)).fst

/-- `ContextFileScanner.findContextFiles`: one winning file per directory
that has at least one hierarchy file, keyed in `byDirectory` order. -/
def findContextFiles (index : FileIndex) (hier : List String) :
    List (DirPath × FileInfo) :=
  index.byDirectory.filterMap fun g =>
    (bestContextFile hier g.snd).map fun f => (g.fst, f)

/-- `ContextFileScanner.scanForContextFiles`.  The TS body spreads the
caller's options over its defaults *after* the merged ignore list, and
`ContextFileDiscovery` always passes every field, so the effective options
are exactly the caller's. -/
def scanForContextFiles (fs : FsNode) (rootDir : DirPath)
    (opts : ScanOptions) : Except JsError (FileIndex × ScanResult) :=
  (scanDirectory fs rootDir opts).map fun sr => (buildFileIndex sr, sr)

/-! ## Hierarchy resolver (`contextFileDiscovery.ts`) -/

/-- `ContextFileConfig`. -/
structure ContextFileConfig where
  hierarchy : List String
  globalDirs : List String
  maxDepth : Nat
  ignorePatterns : List String
  cacheEnabled : Bool
  maxDirs : Nat
  maxCacheSize : Nat
  maxCacheAge : Nat

/-- `DEFAULT_CONTEXT_CONFIG`. -/
def DEFAULT_CONTEXT_CONFIG : ContextFileConfig :=
  { hierarchy := DEFAULT_CONTEXT_HIERARCHY
    globalDirs := [".yelm", ".gemini"]
    maxDepth := 20
    ignorePatterns := ["node_modules", ".git", ".svn", ".hg", "dist",
      "build", "coverage", ".next", ".cache", "tmp", "temp"]
    cacheEnabled := true
    maxDirs := 200
    maxCacheSize := 100
    maxCacheAge := 5 * 60 * 1000 }

/-- `ContextFileResult` (`level` and `priority` are JS numbers that take
the sentinel values `-1`, `999` and `1000`). -/
structure ContextFileResult where
  path : DirPath
  filetype : String
  priority : Int
  lastModified : Nat
  level : Int
deriving DecidableEq, Repr

/-- `ContextFileDiscovery.checkFile`: stat the resolved pattern path and
build a result (level is fixed up by the caller). -/
def checkFile (fs : FsNode) (directory : DirPath) (filename : String)
    (priority : Nat) : Option ContextFileResult :=
  let filePath := resolveContextFilePath filename directory
  match fs.find filePath with
  | some (.file m _ _ _) =>
    some ⟨filePath, filename, (priority : Int), m, 0⟩
  | _ => none

/-- The priority-ordered search of `ContextFileDiscovery.findInDirectory`. -/
def searchHierarchy (fs : FsNode) (directory : DirPath) :
    List (Nat × String) → Option ContextFileResult
  | [] => none
  | (i, filename) :: rest =>
    match checkFile fs directory filename i with
    | some r => some r
    | none => searchHierarchy fs directory rest

/-- `ContextFileDiscovery.findInDirectory`: `null` when the directory is
inaccessible, else the first hierarchy file present. -/
def findInDirectory (fs : FsNode) (cfg : ContextFileConfig)
    (directory : DirPath) : Option ContextFileResult :=
  if accessOk fs directory then
    searchHierarchy fs directory cfg.hierarchy.enum
  else none

/-- `ContextFileDiscovery.discoverGlobalFiles`: first global directory
with a match wins, at `level = -1`. -/
def discoverGlobalFiles (fs : FsNode) (home : DirPath)
    (cfg : ContextFileConfig) : List ContextFileResult :=
  loop cfg.globalDirs
where
  loop : List String → List ContextFileResult
    | [] => []
    | globalDir :: rest =>
      let globalPath := home ++ [globalDir]
      if accessOk fs globalPath then
        match findInDirectory fs cfg globalPath with
        | some r => [{ r with level := -1 }]
        | none => loop rest
      else loop rest

/-- `ContextFileDiscovery.findProjectRoot`: nearest ancestor (the starting
directory included) containing a `.git` directory; the loop stops before
examining the filesystem root. -/
def findProjectRoot (fs : FsNode) : DirPath → Option DirPath
  | [] => none
  | s :: rest =>
    match fs.find ((s :: rest : DirPath) ++ [".git"]) with
    | some (.dir ..) => some (s :: rest)
    | _ => findProjectRoot fs (parentDir (s :: rest))
termination_by p => p.length
decreasing_by simp [parentDir, List.length_dropLast]

/-- The global-directory skip of the fallback upward walk
(`currentDir.endsWith(path.join(homedir(), dir))` — a string suffix
test). -/
def isGlobalSuffix (home : DirPath) (cfg : ContextFileConfig)
    (cur : DirPath) : Bool :=
  cfg.globalDirs.any fun gd =>
    endsWithStr cur.render (DirPath.render (home ++ [gd]))

/-- The `while` loop of the fallback
`ContextFileDiscovery.discoverProjectFiles`: walk up from the working
directory, collecting at most one file per level, stopping at the project
boundary (or the home directory's parent), at `maxDepth`, or at the root. -/
def upwardLoop (fs : FsNode) (home : DirPath) (cfg : ContextFileConfig)
    (stopDir : DirPath) :
    DirPath → Nat → List DirPath → List ContextFileResult
  | [], _, _ => []
  | s :: rest, level, visited =>
    let cur : DirPath := s :: rest
    if cur ∈ visited then []
    else
      let visited' := cur :: visited
      if isGlobalSuffix home cfg cur then
        upwardLoop fs home cfg stopDir (parentDir cur) level visited'
      else
        let found :=
          match findInDirectory fs cfg cur with
          | some r => [{ r with level := (level : Int) }]
          | none => []
        if cur = stopDir then found
        else if cfg.maxDepth < level + 1 then found
        else found ++ upwardLoop fs home cfg stopDir (parentDir cur)
          (level + 1) visited'
termination_by p => p.length
decreasing_by
  all_goals simp [parentDir, List.length_dropLast]

/-- `ContextFileDiscovery.discoverProjectFiles` (the fallback used when the
optimized scanner throws): an upward-only walk. -/
def discoverProjectFiles (fs : FsNode) (home : DirPath)
    (cfg : ContextFileConfig) (startDir : DirPath) : List ContextFileResult :=
  let projectRoot := findProjectRoot fs startDir
  let stopDir :=
    match projectRoot with
    | some r => parentDir r
    | none => parentDir home
  upwardLoop fs home cfg stopDir startDir 0 []

/-- `ContextFileDiscovery.discoverProjectFilesOptimized`: scan downward
from the working directory, then keep each directory's winner whose name is
in the hierarchy; `level` is the scan depth.  On a scanner error it falls
back to the upward-only walk. -/
def discoverProjectFilesOptimized (fs : FsNode) (home : DirPath)
    (cfg : ContextFileConfig) (startDir : DirPath)
    (fileService : Option (DirPath → Bool)) : List ContextFileResult :=
  match scanForContextFiles fs startDir
      ⟨cfg.maxDepth, cfg.maxDirs, cfg.ignorePatterns, fileService⟩ with
  | .ok (index, _) =>
    (findContextFiles index cfg.hierarchy).filterMap fun g =>
      let priority := jsIndexOf cfg.hierarchy g.snd.name
      if priority ≠ -1 then
        some ⟨g.snd.path, g.snd.name, priority, g.snd.lastModified,
          (g.snd.depth : Int)⟩
      else none
  | .error _ => discoverProjectFiles fs home cfg startDir

/-- `ContextFileDiscovery.processExtensionFiles`: existing files are
appended with priority `999` and level `1000`; missing ones are dropped
with a warning. -/
def processExtensionFiles (fs : FsNode) (extensionFiles : List DirPath) :
    List ContextFileResult :=
  extensionFiles.filterMap fun p =>
    match fs.find p with
    | some (.file m _ _ _) => some ⟨p, "extension", 999, m, 1000⟩
    | _ => none

/-- The comparator of `discover`'s final sort, as a total preorder:
`(a, b) => a.level !== b.level ? a.level - b.level : a.priority -
b.priority` returns `≤ 0` exactly here. -/
def resultLe (a b : ContextFileResult) : Bool :=
  if a.level = b.level then a.priority ≤ b.priority else a.level ≤ b.level

/-- Insert into an already (stably) sorted list, after every element that
compares `≤` the new one. -/
def stableInsert (le : ContextFileResult → ContextFileResult → Bool)
    (x : ContextFileResult) :
    List ContextFileResult → List ContextFileResult
  | [] => [x]
  | y :: ys =>
    if le y x && !le x y then y :: stableInsert le x ys else x :: y :: ys

/-- Stable sort with respect to a total preorder; `Array.prototype.sort`
with the comparator above produces exactly this ordering (JS sort is
required to be stable). -/
def stableSort (le : ContextFileResult → ContextFileResult → Bool) :
    List ContextFileResult → List ContextFileResult
  | [] => []
  | x :: xs => stableInsert le x (stableSort le xs)

/-! ### Cache (`ContextFileDiscovery`'s `cache` map and metrics) -/

/-- `CacheEntry`. -/
structure CacheEntry where
  results : List ContextFileResult
  timestamp : Nat
  dirModTimes : List (DirPath × Nat)
  lastAccessed : Nat
deriving DecidableEq, Repr

/-- The cache metrics counters. -/
structure CacheMetrics where
  hits : Nat
  misses : Nat
  evictions : Nat
deriving DecidableEq, Repr

/-- The mutable state of a `ContextFileDiscovery` instance: the cache map
(in insertion order, keyed by the resolved working directory — the
`"discovery:"` prefix of `getCacheKey` is injective, so the path itself is
the key) and the metrics. -/
structure DiscoveryState where
  cache : List (DirPath × CacheEntry)
  metrics : CacheMetrics
deriving DecidableEq, Repr

/-- A fresh `ContextFileDiscovery` instance's state. -/
def DiscoveryState.init : DiscoveryState := ⟨[], 0, 0, 0⟩

/-- JS `Map.get`. -/
def mapGet (cache : List (DirPath × CacheEntry)) (k : DirPath) :
    Option CacheEntry :=
  (cache.find? fun e => e.fst = k).map Prod.snd

/-- JS `Map.delete`. -/
def mapDelete (cache : List (DirPath × CacheEntry)) (k : DirPath) :
    List (DirPath × CacheEntry) :=
  cache.filter fun e => e.fst ≠ k

/-- JS `Map.set`: replace in place, or append. -/
def mapSet (cache : List (DirPath × CacheEntry)) (k : DirPath)
    (v : CacheEntry) : List (DirPath × CacheEntry) :=
  if cache.any fun e => e.fst = k then
    cache.map fun e => if e.fst = k then (k, v) else e
  else cache ++ [(k, v)]

/-- The per-directory revalidation loop of `isCacheValid`: `true` iff
every recorded directory still exists with an identical mtime. -/
def dirsUnchanged (fs : FsNode) : List (DirPath × Nat) → Bool
  | [] => true
  | (d, cachedTime) :: rest =>
    match fs.find d with
    | some n => n.mtimeOf = cachedTime && dirsUnchanged fs rest
    | none => false

/-- `ContextFileDiscovery.isCacheValid`.  Note which branches touch the
`misses` counter: a missing entry and an over-age entry do, a
directory-mtime mismatch (or vanished directory) deletes the entry but
does *not*. -/
def isCacheValid (fs : FsNode) (cfg : ContextFileConfig) (now : Nat)
    (st : DiscoveryState) (key : DirPath) : Bool × DiscoveryState :=
  match mapGet st.cache key with
  | none =>
    (false, { st with metrics := { st.metrics with misses := st.metrics.misses + 1 } })
  | some entry =>
    if (cfg.maxCacheAge : Int) < (now : Int) - (entry.timestamp : Int) then
      (false,
        { cache := mapDelete st.cache key
          metrics := { st.metrics with misses := st.metrics.misses + 1 } })
    else
      -- bump `lastAccessed` for LRU
      let cache' := mapSet st.cache key { entry with lastAccessed := now }
      if dirsUnchanged fs entry.dirModTimes then
        (true,
          { cache := cache'
            metrics := { st.metrics with hits := st.metrics.hits + 1 } })
      else
        (false, { st with cache := mapDelete cache' key })

/-- JS `Set.add` on an insertion-ordered path list. -/
def dedupPush (l : List DirPath) (x : DirPath) : List DirPath :=
  if x ∈ l then l else l ++ [x]

/-- The `dirsToCheck` set of `cacheResults`: the working directory, then
the parent directory of every result, deduplicated in insertion order. -/
def dirsToCheck (workingDir : DirPath) (results : List ContextFileResult) :
    List DirPath :=
  results.foldl (fun acc r => dedupPush acc (parentDir r.path)) [workingDir]

/-- Collect each directory's mtime; `none` if any `fs.stat` fails (the
code then skips caching entirely). -/
def collectDirModTimes (fs : FsNode) : List DirPath →
    Option (List (DirPath × Nat))
  | [] => some []
  | d :: ds =>
    match fs.find d with
    | some n => (collectDirModTimes fs ds).map ((d, n.mtimeOf) :: ·)
    | none => none

/-- `ContextFileDiscovery.evictIfNeeded`: on a full cache, delete the entry
whose `lastAccessed` is smallest — strictly smaller than `Date.now()` and
than every earlier entry's (first such entry in insertion order wins). -/
def evictIfNeeded (cfg : ContextFileConfig) (now : Nat)
    (st : DiscoveryState) : DiscoveryState :=
  if st.cache.length < cfg.maxCacheSize then st
  else
    let scan := st.cache.foldl
      (fun (best : Option DirPath × Nat) e =>
        if e.snd.lastAccessed < best.snd then (some e.fst, e.snd.lastAccessed)
        else best)
      (none, now)
    match scan.fst with
    | some oldestKey =>
      { cache := mapDelete st.cache oldestKey
        metrics := { st.metrics with evictions := st.metrics.evictions + 1 } }
    | none => st

/-- `ContextFileDiscovery.cacheResults`: record the results together with
the mtimes of all contributing directories; bail out without caching if any
of those directories cannot be stat-ed. -/
def cacheResults (fs : FsNode) (cfg : ContextFileConfig) (now : Nat)
    (st : DiscoveryState) (key workingDir : DirPath)
    (results : List ContextFileResult) : DiscoveryState :=
  match collectDirModTimes fs (dirsToCheck workingDir results) with
  | none => st
  | some dirModTimes =>
    let st' := evictIfNeeded cfg now st
    { st' with cache := mapSet st'.cache key ⟨results, now, dirModTimes, now⟩ }

/-- `DiscoveryOptions` (`debug` only toggles logging and is omitted). -/
structure DiscoveryOptions where
  workingDir : DirPath
  extensionContextFiles : List DirPath
  fileService : Option (DirPath → Bool)

/-- The fresh-scan part of `discover`: steps 1–3 concatenated then stably
sorted by `(level, priority)`. -/
def computeDiscovery (fs : FsNode) (home : DirPath)
    (cfg : ContextFileConfig) (opts : DiscoveryOptions) :
    List ContextFileResult :=
  stableSort resultLe
    (discoverGlobalFiles fs home cfg ++
      discoverProjectFilesOptimized fs home cfg opts.workingDir
        opts.fileService ++
      processExtensionFiles fs opts.extensionContextFiles)

/-- `ContextFileDiscovery.discover`.  The cache key is the resolved
working directory (inputs are assumed normalized).  Short-circuit: with
caching disabled `isCacheValid` is never called, so the metrics are
untouched. -/
def discover (fs : FsNode) (home : DirPath) (cfg : ContextFileConfig)
    (now : Nat) (st : DiscoveryState) (opts : DiscoveryOptions) :
    List ContextFileResult × DiscoveryState :=
  let key := opts.workingDir
  let checked :=
    if cfg.cacheEnabled then isCacheValid fs cfg now st key else (false, st)
  if checked.fst then
    (((mapGet checked.snd.cache key).map CacheEntry.results).getD [],
      checked.snd)
  else
    let results := computeDiscovery fs home cfg opts
    let st' :=
      if cfg.cacheEnabled then
        cacheResults fs cfg now checked.snd key opts.workingDir results
      else checked.snd
    (results, st')

/-- `ContextFileDiscovery.getCacheMetrics` (without the derived
`hitRate`). -/
def getCacheMetrics (st : DiscoveryState) : CacheMetrics × Nat :=
  (st.metrics, st.cache.length)

/-! ## Context file manager (`contextFileManager.ts`) -/

/-- `String.prototype.trim()` (structural version of `String.trim`). -/
def jsTrim (s : String) : String :=
  ⟨((s.data.dropWhile Char.isWhitespace).reverse.dropWhile
    Char.isWhitespace).reverse⟩

/-- A discovered file together with the processed content read for it. -/
structure ProcessedFile extends ContextFileResult where
  content : String
deriving DecidableEq, Repr

/-- `ContextLoadResult`. -/
structure ContextLoadResult where
  content : String
  fileCount : Nat
  files : List ProcessedFile
  fileNames : List String
deriving DecidableEq, Repr

/-- `LoadOptions`. -/
structure LoadOptions where
  workingDir : DirPath
  extensionContextFiles : List DirPath
  fileService : Option (DirPath → Bool)

/-- Loop body of `ContextFileManager.readAndProcessFiles`: skip the file if
the gitignore oracle excludes it, then read it (unreadable or vanished
files are dropped with a warning) and trim the content
(`processFileContent`). -/
def rapfStep (fs : FsNode) (fileService : Option (DirPath → Bool))
    (acc : List ProcessedFile) (f : ContextFileResult) :
    List ProcessedFile :=
  if (match fileService with
      | some oracle => oracle f.path
      | none => false) then acc
  else
    match readFileContent fs f.path with
    | some content => acc ++ [⟨f, jsTrim content⟩]
    | none => acc

/-- `ContextFileManager.readAndProcessFiles`. -/
def readAndProcessFiles (fs : FsNode) (files : List ContextFileResult)
    (fileService : Option (DirPath → Bool)) : List ProcessedFile :=
  files.foldl (rapfStep fs fileService) []

/-- `ContextFileManager.combineFileContents`: drop files whose content is
blank, wrap each survivor in its provenance markers, join with blank
lines. -/
def combineFileContents (files : List ProcessedFile)
    (workingDir : DirPath) : String :=
  String.intercalate "\n\n"
    (files.filterMap fun f =>
      if f.content ≠ "" ∧ (jsTrim f.content).length > 0 then
        let displayPath := relPath workingDir f.path
        some ("--- Context from: " ++ displayPath ++ " ---\n" ++ f.content ++
          "\n--- End of Context from: " ++ displayPath ++ " ---")
      else none)

/-- `[...new Set(names)]`: deduplicate preserving first occurrences. -/
def dedupStrings (names : List String) : List String :=
  names.foldl (fun acc n => if n ∈ acc then acc else acc ++ [n]) []

/-- `ContextFileManager.extractFileNames`. -/
def extractFileNames (files : List ProcessedFile) : List String :=
  dedupStrings (files.map fun f => baseName f.path)

/-- `ContextFileManager.loadContextFiles`.  The `discoveryOptions` record
built at the top of the method contains `workingDir`, `debug` and
`extensionContextFiles` but *not* the caller's `fileService`, so discovery
always runs with no gitignore oracle; the oracle is only consulted per
winning file inside `readAndProcessFiles`. -/
def loadContextFiles (fs : FsNode) (home : DirPath)
    (cfg : ContextFileConfig) (now : Nat) (st : DiscoveryState)
    (opts : LoadOptions) : Except JsError ContextLoadResult × DiscoveryState :=
  let discoveryOptions : DiscoveryOptions :=
    { workingDir := opts.workingDir
      extensionContextFiles := opts.extensionContextFiles
      fileService := none }
  let out := discover fs home cfg now st discoveryOptions
  if out.fst = [] then
    (.ok ⟨"", 0, [], []⟩, out.snd)
  else
    let processedFiles := readAndProcessFiles fs out.fst opts.fileService
    (.ok
      { content := combineFileContents processedFiles opts.workingDir
        fileCount := processedFiles.length
        files := processedFiles
        fileNames := extractFileNames processedFiles },
      out.snd)

/-! ## Migration service (`migrationService.ts`) -/

/-- `LegacyFile` (`migrationType` is one of the strings `"rename"`,
`"move"`, `"copy"`). -/
structure LegacyFile where
  path : DirPath
  suggestedName : String
  suggestedPath : DirPath
  migrationType : String
  priority : Nat
  description : String
deriving DecidableEq, Repr

/-- `MigrationPlan`. -/
structure MigrationPlan where
  files : List LegacyFile
  canAutoMigrate : Bool
  warnings : List String
  summary : String
deriving DecidableEq, Repr

/-- The collision warning text of `suggestMigration`'s first loop. -/
def collisionWarning (p : DirPath) : String :=
  "Multiple files would be migrated to " ++ p.render

/-- The existing-target warning text of `suggestMigration`'s second loop. -/
def existsWarning (p : DirPath) : String :=
  "Target file already exists: " ++ p.render

/-- First loop of `MigrationService.suggestMigration`: duplicate suggested
targets produce a collision warning and clear the auto-migrate flag.
State: (`targetPaths` set, warnings, `canAutoMigrate`). -/
def collisionScan :
    List LegacyFile → List DirPath × List String × Bool →
    List DirPath × List String × Bool
  | [], st => st
  | f :: rest, (targets, warnings, flag) =>
    let hit := f.suggestedPath ∈ targets
    collisionScan rest
      (targets ++ [f.suggestedPath],
        if hit then warnings ++ [collisionWarning f.suggestedPath]
        else warnings,
        if hit then false else flag)

/-- Second loop of `suggestMigration`: a suggested target that already
exists on disk produces a warning and clears the flag.  `existsOnDisk` is
`fileExistsSync`. -/
def existsScan (existsOnDisk : DirPath → Bool) :
    List LegacyFile → List String × Bool → List String × Bool
  | [], st => st
  | f :: rest, (warnings, flag) =>
    existsScan existsOnDisk rest
      (if existsOnDisk f.suggestedPath then
        (warnings ++ [existsWarning f.suggestedPath], false)
      else (warnings, flag))

/-- `MigrationService.generateMigrationSummary`. -/
def generateMigrationSummary (files : List LegacyFile) : String :=
  if files.length = 0 then "No files need migration"
  else
    let grouped := files.foldl
      (fun (acc : List (String × Nat)) f =>
        if acc.any fun e => e.fst = f.migrationType then
          acc.map fun e =>
            if e.fst = f.migrationType then (e.fst, e.snd + 1) else e
        else acc ++ [(f.migrationType, 1)])
      []
    let parts := grouped.map fun e =>
      toString e.snd ++ " file" ++ (if 1 < e.snd then "s" else "") ++
        " to " ++ e.fst
    "Migration will " ++ String.intercalate ", " parts

/-- `MigrationService.suggestMigration`. -/
def suggestMigration (existsOnDisk : DirPath → Bool)
    (files : List LegacyFile) : MigrationPlan :=
  let afterCollisions := collisionScan files ([], [], true)
  let afterExists :=
    existsScan existsOnDisk files
      (afterCollisions.snd.fst, afterCollisions.snd.snd)
  { files := files
    canAutoMigrate := afterExists.snd
    warnings := afterExists.fst
    summary := generateMigrationSummary files }

/-- `MigrationService.canAutoMigrate`. -/
def canAutoMigratePlan (plan : MigrationPlan) : Bool :=
  plan.canAutoMigrate && plan.warnings.length = 0

/-! ## Scanner analysis: eligible directories

A dequeued directory is accepted (and counted in `directoriesScanned`)
exactly when it passes the depth, ignore-pattern and gitignore checks.
`eligCount` counts the directories of a subtree that the traversal would
accept: an accepted readable directory contributes itself and its
children's count; an accepted unreadable directory only itself; a
rejected directory seals off its subtree. -/

/-- The acceptance predicate applied to every dequeued directory. -/
def acceptDir (opts : ScanOptions) (p : DirPath) (depth : Nat) : Bool :=
  decide (depth ≤ opts.maxDepth) &&
    !shouldIgnoreDirectory p opts.ignorePatterns && !gitIgnored opts p

mutual
def eligCount (opts : ScanOptions) (p : DirPath) : FsNode → Nat → Nat
  | .file .., _ => 0
  | .dir _ readable es, depth =>
    if acceptDir opts p depth then
      if readable then 1 + eligCountList opts p es depth else 1
    else 0

def eligCountList (opts : ScanOptions) (p : DirPath) :
    List (String × FsNode) → Nat → Nat
  | [], _ => 0
  | (nm, c) :: es, depth =>
    eligCount opts (p ++ [nm]) c (depth + 1) + eligCountList opts p es depth
end

/-- Total eligible count of the queued subtrees. -/
def queueElig (opts : ScanOptions) (q : List QEntry) : Nat :=
  (q.map fun e => eligCount opts e.path e.node e.depth).sum

-- All directory paths that can ever be enqueued or visited from a queue
-- entry: the entry's own path and, recursively, its children's.
mutual
def entryPaths (p : DirPath) : FsNode → List DirPath
  | .file .. => [p]
  | .dir _ _ es => p :: entryPathsList p es

def entryPathsList (p : DirPath) : List (String × FsNode) → List DirPath
  | [] => []
  | (nm, c) :: es => entryPaths (p ++ [nm]) c ++ entryPathsList p es
end

/-- Two queue entries whose reachable path sets do not meet. -/
def disjEntries (a b : QEntry) : Prop :=
  ∀ x ∈ entryPaths a.path a.node, x ∉ entryPaths b.path b.node

/-- The invariant of the scan loop on a well-formed filesystem tree: queue
entries are well-formed directories whose reachable path sets are pairwise
disjoint and disjoint from the visited set (so the cycle guard never fires
and no directory is counted twice). -/
structure ScanInv (q : List QEntry) (visited : List DirPath) : Prop where
  wf : ∀ e ∈ q, wfNode e.node = true
  isdir : ∀ e ∈ q, e.node.isDirB = true
  disj : q.Pairwise disjEntries
  novisit : ∀ e ∈ q, ∀ x ∈ entryPaths e.path e.node, x ∉ visited

/-! ## Concrete scenarios used by the claims -/

/-- The user's home directory in the scenarios. -/
def exHome : DirPath := ["home", "user"]

/-- The specification's scenario tree: `home/.yelm/agents.md`, a project
root `proj/` containing `.git/` and `CLAUDE.md`, and `proj/src/GEMINI.md`. -/
def exTree : FsNode :=
  .dir 1 true [("home", .dir 2 true [("user", .dir 3 true [
    (".yelm", .dir 4 true [("agents.md", .file 10 5 "global stuff" true)]),
    ("proj", .dir 5 true [
      (".git", .dir 6 true []),
      ("CLAUDE.md", .file 20 6 "claude stuff" true),
      ("src", .dir 7 true
        [("GEMINI.md", .file 30 7 "gemini stuff" true)])])])])]

/-- The scenario's working directory `proj/src`. -/
def exWd : DirPath := ["home", "user", "proj", "src"]

/-- `exTree` with the `proj/src` directory touched (mtime 7 → 8). -/
def exTreeTouched : FsNode :=
  .dir 1 true [("home", .dir 2 true [("user", .dir 3 true [
    (".yelm", .dir 4 true [("agents.md", .file 10 5 "global stuff" true)]),
    ("proj", .dir 5 true [
      (".git", .dir 6 true []),
      ("CLAUDE.md", .file 20 6 "claude stuff" true),
      ("src", .dir 8 true
        [("GEMINI.md", .file 30 7 "gemini stuff" true)])])])])]

/-- A root with one subdirectory holding a context file. -/
def exScanSub : FsNode :=
  .dir 1 true [("sub", .dir 2 true [("agents.md", .file 3 4 "hi" true)])]

/-- A root with three empty subdirectories (4 eligible directories). -/
def exScanWide : FsNode :=
  .dir 1 true
    [("a", .dir 2 true []), ("b", .dir 3 true []), ("c", .dir 4 true [])]

/-- A readable root with an unreadable subdirectory and a context file. -/
def exUnreadable : FsNode :=
  .dir 1 true
    [("bad", .dir 2 false [("agents.md", .file 3 4 "hidden" true)]),
     ("agents.md", .file 5 6 "ok" true)]

/-- A plain file (used as a scan root that is not a directory). -/
def exFileNode : FsNode := .file 1 2 "x" true

/-- A tree with no context files and no global directories. -/
def exEmpty : FsNode :=
  .dir 1 true [("home", .dir 2 true [("user", .dir 3 true [])])]

/-- Scan options with `maxDirs = 1`. -/
def exScanOpts1 : ScanOptions := ⟨20, 1, [], none⟩

/-- Scan options with `maxDirs = 2`. -/
def exScanOpts2 : ScanOptions := ⟨20, 2, [], none⟩

/-- A gitignore oracle excluding the scenario's `GEMINI.md`. -/
def exOracle : DirPath → Bool :=
  fun p => p = ["home", "user", "proj", "src", "GEMINI.md"]

/-- Legacy file `p/GEMINI.md → p/agents.md`. -/
def exLegacyA : LegacyFile :=
  ⟨["p", "GEMINI.md"], "agents.md", ["p", "agents.md"], "rename", 1, "d1"⟩

/-- Legacy file `q/GEMINI.md → p/agents.md` (colliding target). -/
def exLegacyB : LegacyFile :=
  ⟨["q", "GEMINI.md"], "agents.md", ["p", "agents.md"], "rename", 1, "d2"⟩

theorem FsNode.size_pos (n : FsNode) : 1 ≤ n.size := by
  cases n <;> simp [FsNode.size]

theorem sizeList_mem_le {es : List (String × FsNode)} {nm : String}
    {c : FsNode} (h : (nm, c) ∈ es) : c.size ≤ FsNode.sizeList es := by
  induction es with
  | nil => simp at h
  | cons e rest ih =>
    obtain ⟨a, b⟩ := e
    rcases List.mem_cons.mp h with h | h
    · obtain ⟨rfl, rfl⟩ := Prod.mk.injEq .. ▸ h
      simp only [FsNode.sizeList]
      omega
    · have := ih h
      simp only [FsNode.sizeList]
      omega

theorem queueSize_append (a b : List QEntry) :
    queueSize (a ++ b) = queueSize a + queueSize b := by
  simp [queueSize]

theorem queueSize_cons (e : QEntry) (q : List QEntry) :
    queueSize (e :: q) = e.node.size + queueSize q := by
  simp [queueSize]

theorem childEntries_cons (p : DirPath) (nm : String) (c : FsNode)
    (rest : List (String × FsNode)) (depth : Nat) :
    childEntries p ((nm, c) :: rest) depth =
      (if c.isDirB then [⟨p ++ [nm], c, depth + 1⟩] else []) ++
        childEntries p rest depth := by
  cases c <;> simp [childEntries, FsNode.isDirB]

theorem childFiles_cons (opts : ScanOptions) (rootDir p : DirPath)
    (nm : String) (c : FsNode) (rest : List (String × FsNode)) (depth : Nat) :
    childFiles opts rootDir p ((nm, c) :: rest) depth =
      (if c.isFileB then
        (createFileInfo opts rootDir (p ++ [nm]) c depth).toList
      else []) ++ childFiles opts rootDir p rest depth := by
  cases c with
  | file m s ct r =>
    simp only [childFiles, List.filterMap_cons, FsNode.isFileB, if_pos rfl,
      if_true]
    cases createFileInfo opts rootDir (p ++ [nm]) (.file m s ct r) depth <;>
      simp
  | dir m r es => simp [childFiles, FsNode.isFileB]

theorem queueSize_childEntries (p : DirPath) (es : List (String × FsNode))
    (depth : Nat) :
    queueSize (childEntries p es depth) ≤ FsNode.sizeList es := by
  induction es with
  | nil => simp [childEntries, queueSize]
  | cons e rest ih =>
    obtain ⟨nm, c⟩ := e
    rw [childEntries_cons, queueSize_append, FsNode.sizeList]
    have hc := FsNode.size_pos c
    have h1 : queueSize
        (if c.isDirB = true then [⟨p ++ [nm], c, depth + 1⟩] else []) ≤
          c.size := by
      by_cases hd : c.isDirB = true <;> simp [hd, queueSize]
    omega

theorem queueElig_append (opts : ScanOptions) (a b : List QEntry) :
    queueElig opts (a ++ b) = queueElig opts a + queueElig opts b := by
  simp [queueElig]

theorem queueElig_cons (opts : ScanOptions) (e : QEntry) (q : List QEntry) :
    queueElig opts (e :: q) =
      eligCount opts e.path e.node e.depth + queueElig opts q := by
  simp [queueElig]

theorem queueElig_childEntries (opts : ScanOptions) (p : DirPath)
    (es : List (String × FsNode)) (depth : Nat) :
    queueElig opts (childEntries p es depth) = eligCountList opts p es depth := by
  induction es with
  | nil => simp [childEntries, queueElig, eligCountList]
  | cons e rest ih =>
    obtain ⟨nm, c⟩ := e
    rw [childEntries_cons, queueElig_append, ih, eligCountList]
    cases c with
    | file m s ct r =>
      simp [FsNode.isDirB, eligCount, queueElig]
    | dir m r es' =>
      simp [FsNode.isDirB, queueElig]

theorem entryPaths_self (p : DirPath) (n : FsNode) : p ∈ entryPaths p n := by
  cases n <;> simp [entryPaths]

theorem mem_entryPathsList {x p : DirPath} {es : List (String × FsNode)}
    (h : x ∈ entryPathsList p es) :
    ∃ nm c, (nm, c) ∈ es ∧ x ∈ entryPaths (p ++ [nm]) c := by
  induction es with
  | nil => simp [entryPathsList] at h
  | cons e rest ih =>
    obtain ⟨nm, c⟩ := e
    simp only [entryPathsList, List.mem_append] at h
    rcases h with h | h
    · exact ⟨nm, c, List.mem_cons_self _ _, h⟩
    · obtain ⟨nm', c', hmem, hx⟩ := ih h
      exact ⟨nm', c', List.mem_cons_of_mem _ hmem, hx⟩

theorem mem_entryPathsList_of {x p : DirPath} {es : List (String × FsNode)}
    {nm : String} {c : FsNode} (hmem : (nm, c) ∈ es)
    (hx : x ∈ entryPaths (p ++ [nm]) c) : x ∈ entryPathsList p es := by
  induction es with
  | nil => simp at hmem
  | cons e rest ih =>
    simp only [entryPathsList, List.mem_append]
    rcases List.mem_cons.mp hmem with h | h
    · left
      obtain ⟨a, b⟩ := e
      obtain ⟨rfl, rfl⟩ := Prod.mk.injEq .. ▸ h
      exact hx
    · right
      obtain ⟨a, b⟩ := e
      exact ih h

theorem sizeOf_mem_entry {es : List (String × FsNode)} {nm : String}
    {c : FsNode} (h : (nm, c) ∈ es) :
    c.size < (FsNode.dir 0 true es).size := by
  have := sizeList_mem_le h
  simp only [FsNode.size]
  omega

theorem mem_entryPaths_take :
    ∀ (n : FsNode) (p x : DirPath), x ∈ entryPaths p n →
      x.take p.length = p
  | .file .., p, x, h => by
    simp only [entryPaths, List.mem_singleton] at h
    subst h
    exact List.take_length _
  | .dir m r es, p, x, h => by
    simp only [entryPaths, List.mem_cons] at h
    rcases h with rfl | h
    · exact List.take_length _
    · obtain ⟨nm, c, hmem, hx⟩ := mem_entryPathsList h
      have ih := mem_entryPaths_take c (p ++ [nm]) x hx
      have h1 : x.take p.length = (x.take (p ++ [nm]).length).take p.length := by
        rw [List.take_take]
        congr 1
        simp
      rw [h1, ih]
      exact List.take_left p [nm]
termination_by n => n.size
decreasing_by exact sizeOf_mem_entry hmem

theorem mem_entryPathsList_length {x p : DirPath}
    {es : List (String × FsNode)} (h : x ∈ entryPathsList p es) :
    p.length < x.length := by
  obtain ⟨nm, c, hmem, hx⟩ := mem_entryPathsList h
  have := mem_entryPaths_take c (p ++ [nm]) x hx
  have hlen : (x.take (p ++ [nm]).length).length = (p ++ [nm]).length := by
    rw [this]
  rw [List.length_take] at hlen
  simp only [List.length_append, List.length_singleton] at hlen
  omega

theorem wfList_mem {es : List (String × FsNode)} {nm : String} {c : FsNode}
    (hwf : wfList es = true) (h : (nm, c) ∈ es) : wfNode c = true := by
  induction es with
  | nil => simp at h
  | cons e rest ih =>
    obtain ⟨a, b⟩ := e
    simp only [wfList, Bool.and_eq_true] at hwf
    rcases List.mem_cons.mp h with h | h
    · obtain ⟨rfl, rfl⟩ := Prod.mk.injEq .. ▸ h
      exact hwf.1
    · exact ih hwf.2 h

theorem wfNode_dir {m : Nat} {r : Bool} {es : List (String × FsNode)}
    (h : wfNode (.dir m r es) = true) :
    distinctNames (es.map Prod.fst) = true ∧ wfList es = true := by
  simpa [wfNode, Bool.and_eq_true] using h

theorem disjEntries_symm {a b : QEntry} (h : disjEntries a b) :
    disjEntries b a :=
  fun x hxb hxa => h x hxa hxb

theorem mem_childEntries {p : DirPath} {es : List (String × FsNode)}
    {depth : Nat} {e : QEntry} (h : e ∈ childEntries p es depth) :
    ∃ nm, (nm, e.node) ∈ es ∧ e.path = p ++ [nm] ∧ e.depth = depth + 1 ∧
      e.node.isDirB = true := by
  induction es with
  | nil => simp [childEntries] at h
  | cons ent rest ih =>
    obtain ⟨nm, c⟩ := ent
    rw [childEntries_cons] at h
    rcases List.mem_append.mp h with h | h
    · by_cases hd : c.isDirB = true
      · rw [if_pos hd] at h
        simp only [List.mem_singleton] at h
        subst h
        exact ⟨nm, List.mem_cons_self _ _, rfl, rfl, hd⟩
      · rw [if_neg hd] at h
        simp at h
    · obtain ⟨nm', hmem, hp, hd, hdir⟩ := ih h
      exact ⟨nm', List.mem_cons_of_mem _ hmem, hp, hd, hdir⟩

theorem entryPaths_roots_ne {p : DirPath} {a b : String} {ca cb : FsNode}
    {x : DirPath} (hab : a ≠ b) (hxa : x ∈ entryPaths (p ++ [a]) ca)
    (hxb : x ∈ entryPaths (p ++ [b]) cb) : False := by
  have h1 := mem_entryPaths_take ca (p ++ [a]) x hxa
  have h2 := mem_entryPaths_take cb (p ++ [b]) x hxb
  rw [show (p ++ [a]).length = (p ++ [b]).length by simp] at h1
  rw [h1] at h2
  exact hab (by simpa using h2)

theorem pairwise_childEntries {p : DirPath} {es : List (String × FsNode)}
    {depth : Nat} (hnd : distinctNames (es.map Prod.fst) = true) :
    (childEntries p es depth).Pairwise disjEntries := by
  induction es with
  | nil => simp [childEntries]
  | cons ent rest ih =>
    obtain ⟨nm, c⟩ := ent
    simp only [List.map_cons, distinctNames, Bool.and_eq_true,
      Bool.not_eq_true'] at hnd
    rw [childEntries_cons, List.pairwise_append]
    refine ⟨?_, ih hnd.2, ?_⟩
    · by_cases hd : c.isDirB = true <;> simp [hd]
    · intro e₁ h₁ e₂ h₂
      by_cases hd : c.isDirB = true
      · rw [if_pos hd] at h₁
        simp only [List.mem_singleton] at h₁
        subst h₁
        obtain ⟨nm₂, hmem₂, hp₂, _, _⟩ := mem_childEntries h₂
        intro x hx hx₂
        rw [hp₂] at hx₂
        refine entryPaths_roots_ne ?_ hx hx₂
        intro hcontra
        subst hcontra
        have hm : nm ∈ rest.map Prod.fst := List.mem_map_of_mem _ hmem₂
        have hnotm : nm ∉ rest.map Prod.fst := by simpa using hnd.1
        exact hnotm hm
      · rw [if_neg hd] at h₁
        simp at h₁

theorem ScanInv.tail {e : QEntry} {rest : List QEntry}
    {visited : List DirPath} (inv : ScanInv (e :: rest) visited) :
    ScanInv rest (e.path :: visited) := by
  have hdisj := List.pairwise_cons.mp inv.disj
  refine ⟨fun a ha => inv.wf a (List.mem_cons_of_mem _ ha),
    fun a ha => inv.isdir a (List.mem_cons_of_mem _ ha), hdisj.2,
    fun a ha x hx => ?_⟩
  intro hvx
  rcases List.mem_cons.mp hvx with hvx | hvx
  · subst hvx
    exact hdisj.1 a ha e.path (entryPaths_self _ _) hx
  · exact inv.novisit a (List.mem_cons_of_mem _ ha) x hx hvx

theorem mem_entryPaths_dirNode {e : QEntry} {x : DirPath} {nm : String}
    {m : Nat} {r : Bool} {es : List (String × FsNode)}
    (hnode : e.node = .dir m r es) {c : FsNode} (hmem : (nm, c) ∈ es)
    (hx : x ∈ entryPaths (e.path ++ [nm]) c) :
    x ∈ entryPaths e.path e.node := by
  rw [hnode]
  simp only [entryPaths, List.mem_cons]
  exact Or.inr (mem_entryPathsList_of hmem hx)

theorem ScanInv.step {e : QEntry} {rest : List QEntry}
    {visited : List DirPath} {m : Nat} {es : List (String × FsNode)}
    (inv : ScanInv (e :: rest) visited) (hnode : e.node = .dir m true es) :
    ScanInv (rest ++ childEntries e.path es e.depth) (e.path :: visited) := by
  have hdisj := List.pairwise_cons.mp inv.disj
  have hwfe := inv.wf e (List.mem_cons_self _ _)
  rw [hnode] at hwfe
  obtain ⟨hnd, hwfl⟩ := wfNode_dir hwfe
  have hsub : ∀ b ∈ childEntries e.path es e.depth,
      ∀ x ∈ entryPaths b.path b.node, x ∈ entryPaths e.path e.node := by
    intro b hb x hx
    obtain ⟨nm, hmem, hbp, _, _⟩ := mem_childEntries hb
    exact mem_entryPaths_dirNode hnode hmem (hbp ▸ hx)
  have hlong : ∀ b ∈ childEntries e.path es e.depth,
      ∀ x ∈ entryPaths b.path b.node, e.path.length < x.length := by
    intro b hb x hx
    obtain ⟨nm, hmem, hbp, _, _⟩ := mem_childEntries hb
    exact mem_entryPathsList_length (mem_entryPathsList_of hmem (hbp ▸ hx))
  constructor
  · intro a ha
    rcases List.mem_append.mp ha with ha | ha
    · exact inv.wf a (List.mem_cons_of_mem _ ha)
    · obtain ⟨nm, hmem, _, _, _⟩ := mem_childEntries ha
      exact wfList_mem hwfl hmem
  · intro a ha
    rcases List.mem_append.mp ha with ha | ha
    · exact inv.isdir a (List.mem_cons_of_mem _ ha)
    · exact (mem_childEntries ha).choose_spec.2.2.2
  · rw [List.pairwise_append]
    refine ⟨hdisj.2, pairwise_childEntries hnd, ?_⟩
    intro a ha b hb x hxa hxb
    exact hdisj.1 a ha x (hsub b hb x hxb) hxa
  · intro a ha x hx
    intro hvx
    rcases List.mem_cons.mp hvx with hvx | hvx
    · subst hvx
      rcases List.mem_append.mp ha with ha | ha
      · exact hdisj.1 a ha e.path (entryPaths_self _ _) hx
      · have := hlong a ha e.path hx
        omega
    · rcases List.mem_append.mp ha with ha | ha
      · exact inv.novisit a (List.mem_cons_of_mem _ ha) x hx hvx
      · exact inv.novisit e (List.mem_cons_self _ _) x (hsub a ha x hx) hvx

theorem scanLoop_le (opts : ScanOptions) (rootDir : DirPath) :
    ∀ (fuel : Nat) (q : List QEntry) (visited : List DirPath)
      (scanned : Nat) (acc : List FileInfo), scanned ≤ opts.maxDirs →
      (scanLoop opts rootDir fuel q visited scanned acc).snd ≤
        opts.maxDirs := by
  intro fuel
  induction fuel with
  | zero =>
    intro q visited scanned acc h
    cases q <;> simpa [scanLoop] using h
  | succ fuel ih =>
    intro q visited scanned acc h
    cases q with
    | nil => simpa [scanLoop] using h
    | cons e rest =>
      simp only [scanLoop]
      by_cases hlt : scanned < opts.maxDirs
      · rw [if_pos hlt]
        by_cases hv : visited.contains e.path = true
        · rw [if_pos hv]
          exact ih rest visited scanned acc h
        · rw [if_neg hv]
          by_cases hdep : opts.maxDepth < e.depth
          · rw [if_pos hdep]
            exact ih rest _ scanned acc h
          · rw [if_neg hdep]
            by_cases hig : shouldIgnoreDirectory e.path opts.ignorePatterns = true
            · rw [if_pos hig]
              exact ih rest _ scanned acc h
            · rw [if_neg hig]
              by_cases hgi : gitIgnored opts e.path = true
              · rw [if_pos hgi]
                exact ih rest _ scanned acc h
              · rw [if_neg hgi]
                cases hnode : e.node with
                | file m s ct r => exact ih rest _ (scanned + 1) acc hlt
                | dir m rb es =>
                  cases rb with
                  | true => exact ih _ _ (scanned + 1) _ hlt
                  | false => exact ih rest _ (scanned + 1) acc hlt
      · rw [if_neg hlt]
        exact h

theorem scanLoop_scanned (opts : ScanOptions) (rootDir : DirPath) :
    ∀ (fuel : Nat) (q : List QEntry) (visited : List DirPath)
      (scanned : Nat) (acc : List FileInfo), queueSize q ≤ fuel →
      ScanInv q visited → scanned ≤ opts.maxDirs →
      (scanLoop opts rootDir fuel q visited scanned acc).snd =
        min opts.maxDirs (scanned + queueElig opts q) := by
  intro fuel
  induction fuel with
  | zero =>
    intro q visited scanned acc hfuel inv hsc
    cases q with
    | nil =>
      simp only [scanLoop, queueElig, List.map_nil, List.sum_nil]
      omega
    | cons e rest =>
      rw [queueSize_cons] at hfuel
      have := FsNode.size_pos e.node
      omega
  | succ fuel ih =>
    intro q visited scanned acc hfuel inv hsc
    cases q with
    | nil =>
      simp only [scanLoop, queueElig, List.map_nil, List.sum_nil]
      omega
    | cons e rest =>
      rw [queueSize_cons] at hfuel
      have hsize := FsNode.size_pos e.node
      obtain ⟨md, rb, es, hnode⟩ : ∃ m rb es, e.node = .dir m rb es := by
        have := inv.isdir e (List.mem_cons_self _ _)
        cases hn : e.node with
        | file m s ct r => rw [hn] at this; simp [FsNode.isDirB] at this
        | dir m rb es => exact ⟨m, rb, es, rfl⟩
      simp only [scanLoop]
      by_cases hlt : scanned < opts.maxDirs
      · rw [if_pos hlt]
        by_cases hv : visited.contains e.path = true
        · exact absurd (List.mem_cons_self e.path visited)
            (fun _ => inv.novisit e (List.mem_cons_self _ _) e.path
              (entryPaths_self _ _) (by simpa using hv))
        · rw [if_neg hv]
          by_cases hdep : opts.maxDepth < e.depth
          · rw [if_pos hdep]
            have helig : eligCount opts e.path e.node e.depth = 0 := by
              rw [hnode]
              simp only [eligCount, acceptDir]
              rw [if_neg (by simp; omega)]
            rw [ih rest _ scanned acc (by omega) inv.tail hsc,
              queueElig_cons, helig]
            omega
          · rw [if_neg hdep]
            by_cases hig : shouldIgnoreDirectory e.path opts.ignorePatterns
              = true
            · rw [if_pos hig]
              have helig : eligCount opts e.path e.node e.depth = 0 := by
                rw [hnode]
                simp only [eligCount, acceptDir]
                rw [if_neg (by simp [hig])]
              rw [ih rest _ scanned acc (by omega) inv.tail hsc,
                queueElig_cons, helig]
              omega
            · rw [if_neg hig]
              by_cases hgi : gitIgnored opts e.path = true
              · rw [if_pos hgi]
                have helig : eligCount opts e.path e.node e.depth = 0 := by
                  rw [hnode]
                  simp only [eligCount, acceptDir]
                  rw [if_neg (by simp [hgi])]
                rw [ih rest _ scanned acc (by omega) inv.tail hsc,
                  queueElig_cons, helig]
                omega
              · rw [if_neg hgi]
                have haccept : acceptDir opts e.path e.depth = true := by
                  simp only [acceptDir, Bool.and_eq_true, Bool.not_eq_true',
                    decide_eq_true_eq]
                  refine ⟨⟨by omega, by simpa using hig⟩, by simpa using hgi⟩
                rw [hnode]
                cases rb with
                | true =>
                  have helig : eligCount opts e.path e.node e.depth =
                      1 + eligCountList opts e.path es e.depth := by
                    rw [hnode]
                    simp [eligCount, haccept]
                  have hq' : queueSize (rest ++ childEntries e.path es e.depth)
                      ≤ fuel := by
                    rw [queueSize_append]
                    have h1 := queueSize_childEntries e.path es e.depth
                    have h2 : e.node.size = 1 + FsNode.sizeList es := by
                      rw [hnode]; simp [FsNode.size]
                    omega
                  rw [ih _ _ (scanned + 1) _ hq' (inv.step hnode) (by omega),
                    queueElig_append, queueElig_childEntries, queueElig_cons,
                    helig]
                  omega
                | false =>
                  have helig : eligCount opts e.path e.node e.depth = 1 := by
                    rw [hnode]
                    simp [eligCount, haccept]
                  rw [ih rest _ (scanned + 1) acc (by omega) inv.tail
                    (by omega), queueElig_cons, helig]
                  omega
      · rw [if_neg hlt]
        have : scanned = opts.maxDirs := by omega
        omega

theorem scanInv_singleton (root : DirPath) (n : FsNode)
    (hwf : wfNode n = true) (hdir : n.isDirB = true) :
    ScanInv [⟨root, n, 0⟩] [] := by
  refine ⟨?_, ?_, ?_, ?_⟩
  · intro e he
    simp only [List.mem_singleton] at he
    subst he
    exact hwf
  · intro e he
    simp only [List.mem_singleton] at he
    subst he
    exact hdir
  · exact List.pairwise_singleton _ _
  · intro e _ x _
    simp

theorem queueSize_singleton (root : DirPath) (n : FsNode) (d : Nat) :
    queueSize [⟨root, n, d⟩] = n.size := by
  simp [queueSize]

theorem queueElig_singleton (opts : ScanOptions) (root : DirPath)
    (n : FsNode) (d : Nat) :
    queueElig opts [⟨root, n, d⟩] = eligCount opts root n d := by
  simp [queueElig]

theorem scanDirectory_ok_cases {fs : FsNode} {root : DirPath}
    {opts : ScanOptions} {r : ScanResult} {n : FsNode}
    (hfind : fs.find root = some n)
    (hok : scanDirectory fs root opts = .ok r) :
    n.isDirB = true ∧
      r.directoriesScanned = (scanLoop opts root n.size [⟨root, n, 0⟩] [] 0 []).snd ∧
      r.limitReached =
        decide (opts.maxDirs ≤ (scanLoop opts root n.size [⟨root, n, 0⟩] [] 0 []).snd) := by
  by_cases hdir : n.isDirB = true
  · refine ⟨hdir, ?_, ?_⟩ <;>
    · simp only [scanDirectory, hfind, if_pos hdir] at hok
      cases hok
      rfl
  · simp only [scanDirectory, hfind, if_neg hdir] at hok
    cases hok

/-- C5, helper: on a well-formed tree whose scan succeeds, the counter is
the minimum of `maxDirs` and the number of eligible directories. -/
theorem scanDirectory_scanned_eq {fs : FsNode} {root : DirPath}
    {opts : ScanOptions} {r : ScanResult} {n : FsNode}
    (hwf : wfNode n = true) (hfind : fs.find root = some n)
    (hok : scanDirectory fs root opts = .ok r) :
    r.directoriesScanned = min opts.maxDirs (eligCount opts root n 0) := by
  obtain ⟨hdir, hscan, _⟩ := scanDirectory_ok_cases hfind hok
  rw [hscan, scanLoop_scanned opts root n.size [⟨root, n, 0⟩] [] 0 []
    (by rw [queueSize_singleton]) (scanInv_singleton root n hwf hdir)
    (Nat.zero_le _), queueElig_singleton, Nat.zero_add]

/-- Claim C5: for every scan configured with `maxDirs = N` on a
well-formed tree, `directoriesScanned ≤ N`, and when the tree has more
than `N` eligible directories (directories the traversal accepts:
within-depth, not ignore-matched, not gitignored, reachable through
accepted readable ancestors) `limitReached = true`. -/
theorem claim5_maxDirs_bound (fs : FsNode) (root : DirPath)
    (opts : ScanOptions) (n : FsNode) (r : ScanResult)
    (hwf : wfNode n = true) (hfind : fs.find root = some n)
    (hok : scanDirectory fs root opts = .ok r) :
    r.directoriesScanned ≤ opts.maxDirs ∧
      (opts.maxDirs < eligCount opts root n 0 → r.limitReached = true) := by
  obtain ⟨hdir, hscan, hlim⟩ := scanDirectory_ok_cases hfind hok
  have heq := scanDirectory_scanned_eq hwf hfind hok
  constructor
  · omega
  · intro hgt
    rw [hlim, ← hscan, heq]
    simp
    omega

/-- Witness for C5 at a concrete tree: 4 eligible directories, cap 2. -/
theorem claim5_maxDirs_bound_witness :
    wfNode exScanWide = true ∧
      (2 : Nat) < eligCount exScanOpts2 [] exScanWide 0 ∧
      scanDirectory exScanWide [] exScanOpts2 = .ok ⟨[], 2, 0, true⟩ ∧
      (ScanResult.mk [] 2 0 true).directoriesScanned ≤ exScanOpts2.maxDirs ∧
      (ScanResult.mk [] 2 0 true).limitReached = true :=
  ⟨by decide, by decide, by decide,
    (claim5_maxDirs_bound exScanWide [] exScanOpts2 exScanWide
      ⟨[], 2, 0, true⟩ (by decide) (by rfl) (by decide)).1,
    (claim5_maxDirs_bound exScanWide [] exScanOpts2 exScanWide
      ⟨[], 2, 0, true⟩ (by decide) (by rfl) (by decide)).2 (by decide)⟩

/-- Counterexample to C6 as stated: with `maxDirs = 1` the subdirectory
`sub` is already queued when the cap is reached, yet its `agents.md` is
missing from the result (`files = []`); raising the cap to 2 shows what
draining the queue would have found. -/
theorem claim6_counterexample :
    scanDirectory exScanSub [] exScanOpts1 = .ok ⟨[], 1, 0, true⟩ ∧
      scanDirectory exScanSub [] exScanOpts2 =
        .ok ⟨[⟨["sub", "agents.md"], "agents.md", ["sub"], "sub/agents.md",
          3, 4, 1⟩], 2, 1, true⟩ := by
  constructor <;> decide

/-- C6 as amended: when there are more eligible directories than
`maxDirs`, the scan still returns successfully (the cap is surfaced via
`limitReached = true`, never thrown) and stops with exactly `maxDirs`
directories scanned — queued directories beyond the cap are abandoned, not
drained. -/
theorem claim6_amended (fs : FsNode) (root : DirPath) (opts : ScanOptions)
    (n : FsNode) (r : ScanResult) (hwf : wfNode n = true)
    (hfind : fs.find root = some n)
    (hok : scanDirectory fs root opts = .ok r)
    (hcap : opts.maxDirs < eligCount opts root n 0) :
    r.limitReached = true ∧ r.directoriesScanned = opts.maxDirs := by
  obtain ⟨hdir, hscan, hlim⟩ := scanDirectory_ok_cases hfind hok
  have heq := scanDirectory_scanned_eq hwf hfind hok
  constructor
  · rw [hlim, ← hscan, heq]
    simp
    omega
  · omega

/-- Witness for the amended C6 at the concrete tree of the
counterexample. -/
theorem claim6_amended_witness :
    scanDirectory exScanSub [] exScanOpts1 = .ok ⟨[], 1, 0, true⟩ ∧
      (ScanResult.mk [] 1 0 true).limitReached = true ∧
      (ScanResult.mk [] 1 0 true).directoriesScanned = exScanOpts1.maxDirs :=
  ⟨by decide,
    claim6_amended exScanSub [] exScanOpts1 exScanSub ⟨[], 1, 0, true⟩
      (by decide) (by rfl) (by decide) (by decide)⟩

/-- Counterexample to C4 as stated: a scan rooted at a non-directory
throws the plain `Error('Root path is not a directory: …')` — its
constructor is not `ContextFileError` and it carries no
`NOT_A_DIRECTORY` code. -/
theorem claim4_counterexample :
    scanDirectory exFileNode [] exScanOpts1 =
      .error ⟨"Error", "Root path is not a directory: /", none⟩ ∧
      (JsError.mk "Error" "Root path is not a directory: /" none).name ≠
        "ContextFileError" ∧
      (JsError.mk "Error" "Root path is not a directory: /" none).code ≠
        some "NOT_A_DIRECTORY" := by
  refine ⟨by decide, by decide, by decide⟩

/-- C4 as amended: unreadable subdirectories are recovered locally (the
scan returns a result whenever the root exists and is a directory), and
the scan as a whole fails only when the root is inaccessible (the `stat`
error is rethrown) or not a directory (a plain `Error`, not a
`ContextFileError` with code `NOT_A_DIRECTORY`). -/
theorem claim4_amended (fs : FsNode) (root : DirPath) (opts : ScanOptions) :
    (fs.find root = none →
      scanDirectory fs root opts = .error (enoentError root)) ∧
      (∀ n, fs.find root = some n → n.isDirB = false →
        scanDirectory fs root opts =
          .error ⟨"Error", "Root path is not a directory: " ++ root.render,
            none⟩) ∧
      (∀ n, fs.find root = some n → n.isDirB = true →
        ∃ r, scanDirectory fs root opts = .ok r) := by
  refine ⟨fun h => by simp [scanDirectory, h], fun n h hdir => ?_,
    fun n h hdir => ?_⟩
  · simp [scanDirectory, h, hdir]
  · simp only [scanDirectory, h, if_pos hdir]
    exact ⟨_, rfl⟩

/-- The step function of `bestContextFile`'s fold. -/
theorem bestFold_inv (hier : List String) :
    ∀ (files : List FileInfo) (st : Option FileInfo × Int),
      ((st.fst = none ∧ st.snd = MAX_SAFE_INTEGER) ∨
        (∃ f, st.fst = some f ∧ st.snd = jsIndexOf hier f.name ∧
          jsIndexOf hier f.name ≠ -1 ∧ st.snd < MAX_SAFE_INTEGER)) →
      (let final := files.foldl
        (fun (best : Option FileInfo × Int) f =>
          let priority := jsIndexOf hier f.name
          if priority ≠ -1 ∧ priority < best.snd then (some f, priority)
          else best) st
      ((final.fst = none ∧ final.snd = MAX_SAFE_INTEGER) ∨
        (∃ f, final.fst = some f ∧ final.snd = jsIndexOf hier f.name ∧
          jsIndexOf hier f.name ≠ -1 ∧ final.snd < MAX_SAFE_INTEGER)) ∧
        final.snd ≤ st.snd ∧
        (∀ g ∈ files, jsIndexOf hier g.name ≠ -1 → final.snd ≤
          jsIndexOf hier g.name) ∧
        (∀ f, final.fst = some f → st.fst = some f ∨ f ∈ files)) := by
  intro files
  induction files with
  | nil =>
    intro st hst
    exact ⟨hst, le_refl _, by simp, fun f hf => Or.inl hf⟩
  | cons x xs ih =>
    intro st hst
    simp only [List.foldl_cons]
    by_cases hx : jsIndexOf hier x.name ≠ -1 ∧ jsIndexOf hier x.name < st.snd
    · rw [if_pos hx]
      have hlt : jsIndexOf hier x.name < MAX_SAFE_INTEGER := by
        rcases hst with ⟨_, h2⟩ | ⟨f, _, h2, _, h4⟩
        · omega
        · omega
      obtain ⟨hinv, hmono, hmin, hmem⟩ := ih (some x, jsIndexOf hier x.name)
        (Or.inr ⟨x, rfl, rfl, hx.1, hlt⟩)
      refine ⟨hinv, le_trans hmono (le_of_lt hx.2), ?_, ?_⟩
      · intro g hg hgidx
        rcases List.mem_cons.mp hg with rfl | hg
        · exact hmono
        · exact hmin g hg hgidx
      · intro f hf
        rcases hmem f hf with h | h
        · simp only [Option.some.injEq] at h
          subst h
          exact Or.inr (List.mem_cons_self _ _)
        · exact Or.inr (List.mem_cons_of_mem _ h)
    · rw [if_neg hx]
      obtain ⟨hinv, hmono, hmin, hmem⟩ := ih st hst
      refine ⟨hinv, hmono, ?_, ?_⟩
      · intro g hg hgidx
        rcases List.mem_cons.mp hg with rfl | hg
        · have h1 : st.snd ≤ jsIndexOf hier g.name := by
            by_contra hc
            push_neg at hc
            exact hx ⟨hgidx, hc⟩
          exact le_trans hmono h1
        · exact hmin g hg hgidx
      · intro f hf
        rcases hmem f hf with h | h
        · exact Or.inl h
        · exact Or.inr (List.mem_cons_of_mem _ h)

/-- `findContextFiles`'s inner fold picks a member of the directory's file
list whose hierarchy index is defined and minimal. -/
theorem bestContextFile_spec {hier : List String} {files : List FileInfo}
    {f : FileInfo} (h : bestContextFile hier files = some f) :
    f ∈ files ∧ jsIndexOf hier f.name ≠ -1 ∧
      ∀ g ∈ files, jsIndexOf hier g.name ≠ -1 →
        jsIndexOf hier f.name ≤ jsIndexOf hier g.name := by
  obtain ⟨hinv, _, hmin, hmem⟩ := bestFold_inv hier files
    (none, MAX_SAFE_INTEGER) (Or.inl ⟨rfl, rfl⟩)
  rw [bestContextFile] at h
  rcases hinv with ⟨h1, _⟩ | ⟨f', h1, h2, h3, _⟩
  · rw [h] at h1
    cases h1
  · have hff : f' = f := by
      rw [h1] at h
      exact Option.some.inj h
    subst hff
    refine ⟨?_, h3, fun g hg hgidx => h2 ▸ hmin g hg hgidx⟩
    rcases hmem f' h1 with hc | hc
    · cases hc
    · exact hc

theorem insGroup_keys {κ : Type} [DecidableEq κ]
    (m : List (κ × List FileInfo)) (k : κ) (f : FileInfo) :
    (insGroup m k f).map Prod.fst =
      if k ∈ m.map Prod.fst then m.map Prod.fst
      else m.map Prod.fst ++ [k] := by
  induction m with
  | nil => simp [insGroup]
  | cons e rest ih =>
    obtain ⟨k₀, g₀⟩ := e
    by_cases hk : k₀ = k
    · subst hk
      simp [insGroup]
    · simp only [insGroup, if_neg hk, List.map_cons, ih]
      by_cases hmem : k ∈ rest.map Prod.fst <;>
        simp [hmem, hk, Ne.symm hk]

theorem insGroup_keys_nodup {κ : Type} [DecidableEq κ]
    {m : List (κ × List FileInfo)} (k : κ) (f : FileInfo)
    (h : (m.map Prod.fst).Nodup) :
    ((insGroup m k f).map Prod.fst).Nodup := by
  rw [insGroup_keys]
  by_cases hmem : k ∈ m.map Prod.fst
  · simpa [hmem] using h
  · rw [if_neg hmem]
    simp [List.nodup_append, h, hmem]

theorem insGroup_mem {κ : Type} [DecidableEq κ]
    {m : List (κ × List FileInfo)} {k k' : κ} {f x : FileInfo}
    {g : List FileInfo} (h : (k', g) ∈ insGroup m k f) (hx : x ∈ g) :
    (∃ g₀, (k', g₀) ∈ m ∧ x ∈ g₀) ∨ (x = f ∧ k' = k) := by
  induction m with
  | nil =>
    simp only [insGroup, List.mem_singleton] at h
    rcases h with ⟨rfl, rfl⟩
    simp only [List.mem_singleton] at hx
    exact Or.inr ⟨hx, rfl⟩
  | cons e rest ih =>
    obtain ⟨k₀, g₀⟩ := e
    by_cases hk : k₀ = k
    · subst hk
      simp only [insGroup, if_pos rfl] at h
      rcases List.mem_cons.mp h with h | h
      · obtain ⟨rfl, rfl⟩ := Prod.mk.injEq .. ▸ h
        rcases List.mem_append.mp hx with hx | hx
        · exact Or.inl ⟨g₀, List.mem_cons_self _ _, hx⟩
        · simp only [List.mem_singleton] at hx
          exact Or.inr ⟨hx, rfl⟩
      · exact Or.inl ⟨g, List.mem_cons_of_mem _ h, hx⟩
    · simp only [insGroup, if_neg hk] at h
      rcases List.mem_cons.mp h with h | h
      · obtain ⟨rfl, rfl⟩ := Prod.mk.injEq .. ▸ h
        exact Or.inl ⟨g, List.mem_cons_self _ _, hx⟩
      · rcases ih h with ⟨g', hg', hx'⟩ | h'
        · exact Or.inl ⟨g', List.mem_cons_of_mem _ hg', hx'⟩
        · exact Or.inr h'

theorem insGroup_grows {κ : Type} [DecidableEq κ]
    {m : List (κ × List FileInfo)} {k' : κ} {g : List FileInfo} (k : κ)
    (f : FileInfo) (h : (k', g) ∈ m) :
    ∃ g', (k', g') ∈ insGroup m k f ∧ ∀ x ∈ g, x ∈ g' := by
  induction m with
  | nil => simp at h
  | cons e rest ih =>
    obtain ⟨k₀, g₀⟩ := e
    by_cases hk : k₀ = k
    · subst hk
      simp only [insGroup, if_pos rfl]
      rcases List.mem_cons.mp h with h | h
      · simp only [Prod.mk.injEq] at h
        obtain ⟨rfl, rfl⟩ := h
        exact ⟨g ++ [f], List.mem_cons_self _ _,
          fun x hx => List.mem_append_left _ hx⟩
      · exact ⟨g, List.mem_cons_of_mem _ h, fun x hx => hx⟩
    · simp only [insGroup, if_neg hk]
      rcases List.mem_cons.mp h with h | h
      · simp only [Prod.mk.injEq] at h
        obtain ⟨rfl, rfl⟩ := h
        exact ⟨g, List.mem_cons_self _ _, fun x hx => hx⟩
      · obtain ⟨g', hg', hsub⟩ := ih h
        exact ⟨g', List.mem_cons_of_mem _ hg', hsub⟩

theorem insGroup_self {κ : Type} [DecidableEq κ]
    (m : List (κ × List FileInfo)) (k : κ) (f : FileInfo) :
    ∃ g, (k, g) ∈ insGroup m k f ∧ f ∈ g := by
  induction m with
  | nil => exact ⟨[f], by simp [insGroup], by simp⟩
  | cons e rest ih =>
    obtain ⟨k₀, g₀⟩ := e
    by_cases hk : k₀ = k
    · subst hk
      exact ⟨g₀ ++ [f], by simp [insGroup], by simp⟩
    · obtain ⟨g, hg, hf⟩ := ih
      exact ⟨g, by simp only [insGroup, if_neg hk]; exact
        List.mem_cons_of_mem _ hg, hf⟩

theorem insGroup_other {κ : Type} [DecidableEq κ]
    {m : List (κ × List FileInfo)} {k k' : κ} {f : FileInfo}
    {g : List FileInfo} (h : (k', g) ∈ insGroup m k f) (hne : k' ≠ k) :
    (k', g) ∈ m := by
  induction m with
  | nil =>
    simp only [insGroup, List.mem_singleton] at h
    obtain ⟨rfl, rfl⟩ := Prod.mk.injEq .. ▸ h
    exact absurd rfl hne
  | cons e rest ih =>
    obtain ⟨k₀, g₀⟩ := e
    by_cases hk : k₀ = k
    · subst hk
      simp only [insGroup, if_pos rfl] at h
      rcases List.mem_cons.mp h with h | h
      · obtain ⟨rfl, rfl⟩ := Prod.mk.injEq .. ▸ h
        exact absurd rfl hne
      · exact List.mem_cons_of_mem _ h
    · simp only [insGroup, if_neg hk] at h
      rcases List.mem_cons.mp h with h | h
      · obtain ⟨rfl, rfl⟩ := Prod.mk.injEq .. ▸ h
        exact List.mem_cons_self _ _
      · exact List.mem_cons_of_mem _ (ih h)

theorem insGroup_at_key {κ : Type} [DecidableEq κ]
    {m : List (κ × List FileInfo)} {k : κ} {f : FileInfo}
    {g' : List FileInfo} (hnd : (m.map Prod.fst).Nodup)
    (h : (k, g') ∈ insGroup m k f) :
    (∃ g, (k, g) ∈ m ∧ g' = g ++ [f]) ∨
      (k ∉ m.map Prod.fst ∧ g' = [f]) := by
  induction m with
  | nil =>
    simp only [insGroup, List.mem_singleton] at h
    obtain ⟨-, rfl⟩ := Prod.mk.injEq .. ▸ h
    exact Or.inr ⟨by simp, rfl⟩
  | cons e rest ih =>
    obtain ⟨k₀, g₀⟩ := e
    simp only [List.map_cons, List.nodup_cons] at hnd
    by_cases hk : k₀ = k
    · subst hk
      simp only [insGroup, if_pos rfl] at h
      rcases List.mem_cons.mp h with h | h
      · obtain ⟨-, rfl⟩ := Prod.mk.injEq .. ▸ h
        exact Or.inl ⟨g₀, List.mem_cons_self _ _, rfl⟩
      · exact absurd (List.mem_map_of_mem Prod.fst h) hnd.1
    · simp only [insGroup, if_neg hk] at h
      rcases List.mem_cons.mp h with h | h
      · obtain ⟨rfl, rfl⟩ := Prod.mk.injEq .. ▸ h
        exact absurd rfl hk
      · rcases ih hnd.2 h with ⟨g, hg, heq⟩ | ⟨hnot, heq⟩
        · exact Or.inl ⟨g, List.mem_cons_of_mem _ hg, heq⟩
        · refine Or.inr ⟨?_, heq⟩
          simp only [List.map_cons, List.mem_cons]
          rintro (rfl | hc)
          · exact hk rfl
          · exact hnot hc

theorem insGroup_keys_superset {κ : Type} [DecidableEq κ]
    {m : List (κ × List FileInfo)} {k' : κ} (k : κ) (f : FileInfo)
    (h : k' ∈ m.map Prod.fst) : k' ∈ (insGroup m k f).map Prod.fst := by
  rw [insGroup_keys]
  by_cases hk : k ∈ m.map Prod.fst <;> simp [hk, h]

theorem insGroup_key_mem {κ : Type} [DecidableEq κ]
    (m : List (κ × List FileInfo)) (k : κ) (f : FileInfo) :
    k ∈ (insGroup m k f).map Prod.fst := by
  obtain ⟨g, hg, _⟩ := insGroup_self m k f
  exact List.mem_map_of_mem Prod.fst hg

/-- The running invariant of the directory-grouping fold: key list is
nodup, every group is exactly the processed files of that directory in
order, and every processed file's directory is a key. -/
def GroupInv (processed : List FileInfo)
    (m : List (DirPath × List FileInfo)) : Prop :=
  (m.map Prod.fst).Nodup ∧
    (∀ d g, (d, g) ∈ m →
      g = processed.filter fun x => decide (x.directory = d)) ∧
    (∀ x ∈ processed, x.directory ∈ m.map Prod.fst)

theorem groupInv_step {processed : List FileInfo}
    {m : List (DirPath × List FileInfo)} (inv : GroupInv processed m)
    (x : FileInfo) :
    GroupInv (processed ++ [x]) (insGroup m x.directory x) := by
  obtain ⟨hnd, hgroups, hkeys⟩ := inv
  refine ⟨insGroup_keys_nodup _ _ hnd, ?_, ?_⟩
  · intro d g hdg
    by_cases hd : d = x.directory
    · subst hd
      rcases insGroup_at_key hnd hdg with ⟨g₀, hg₀, rfl⟩ | ⟨hnot, rfl⟩
      · rw [hgroups _ g₀ hg₀, List.filter_append]
        simp
      · rw [List.filter_append]
        have hempty : processed.filter
            (fun y => decide (y.directory = x.directory)) = [] := by
          rw [List.filter_eq_nil_iff]
          intro y hy
          simp only [decide_eq_true_eq]
          intro hc
          exact hnot (hc ▸ hkeys y hy)
        simp [hempty]
    · have hmem := insGroup_other hdg hd
      have hcne : ¬ (x.directory = d) := fun hc => hd hc.symm
      rw [hgroups d g hmem, List.filter_append]
      simp [hcne]
  · intro y hy
    rcases List.mem_append.mp hy with hy | hy
    · exact insGroup_keys_superset _ _ (hkeys y hy)
    · simp only [List.mem_singleton] at hy
      subst hy
      exact insGroup_key_mem m y.directory y

theorem groupFold_inv :
    ∀ (files processed : List FileInfo)
      (m : List (DirPath × List FileInfo)), GroupInv processed m →
      GroupInv (processed ++ files)
        (files.foldl (fun acc f => insGroup acc f.directory f) m) := by
  intro files
  induction files with
  | nil => intro processed m inv; simpa using inv
  | cons x xs ih =>
    intro processed m inv
    have step := groupInv_step inv x
    have := ih (processed ++ [x]) _ step
    simpa using this

/-- The `byDirectory` component of `buildFileIndex` is the plain
directory-grouping fold. -/
theorem buildFileIndex_byDirectory (sr : ScanResult) :
    (buildFileIndex sr).byDirectory =
      sr.files.foldl (fun acc f => insGroup acc f.directory f) [] := by
  rw [buildFileIndex]
  generalize sr.files = files
  suffices h : ∀ (idx : FileIndex),
      (files.foldl (fun (i : FileIndex) f =>
        { byName := insGroup i.byName f.name f
          byDirectory := insGroup i.byDirectory f.directory f
          byDepth := insGroup i.byDepth f.depth f
          all := i.all }) idx).byDirectory =
      files.foldl (fun acc f => insGroup acc f.directory f) idx.byDirectory by
    exact h ⟨[], [], [], []⟩
  induction files with
  | nil => intro idx; rfl
  | cons x xs ih => intro idx; exact ih _

/-- Every group of `byDirectory` is exactly the scanned files of its
directory, in scan order, and the keys are distinct. -/
theorem byDirectory_spec (sr : ScanResult) :
    (((buildFileIndex sr).byDirectory.map Prod.fst).Nodup ∧
      (∀ d g, (d, g) ∈ (buildFileIndex sr).byDirectory →
        g = sr.files.filter fun x => decide (x.directory = d)) ∧
      (∀ x ∈ sr.files,
        x.directory ∈ (buildFileIndex sr).byDirectory.map Prod.fst)) := by
  rw [buildFileIndex_byDirectory]
  have := groupFold_inv sr.files [] [] ⟨by simp, by simp, by simp⟩
  simpa [GroupInv] using this

/-- The keys of `findContextFiles` are a sub-sequence of the index's
directory keys. -/
theorem findContextFiles_keys_sublist (index : FileIndex)
    (hier : List String) :
    ((findContextFiles index hier).map Prod.fst).Sublist
      (index.byDirectory.map Prod.fst) := by
  rw [findContextFiles]
  induction index.byDirectory with
  | nil => simp
  | cons g rest ih =>
    simp only [List.filterMap_cons, List.map_cons]
    cases bestContextFile hier g.snd with
    | none => exact ih.cons _
    | some f => simpa using List.Sublist.cons₂ g.fst ih

theorem globalLoop_len (fs : FsNode) (home : DirPath)
    (cfg : ContextFileConfig) :
    ∀ dirs, (discoverGlobalFiles.loop fs home cfg dirs).length ≤ 1 := by
  intro dirs
  induction dirs with
  | nil => simp [discoverGlobalFiles.loop]
  | cons gd rest ih =>
    simp only [discoverGlobalFiles.loop]
    by_cases ha : accessOk fs (home ++ [gd]) = true
    · rw [if_pos ha]
      cases findInDirectory fs cfg (home ++ [gd]) <;> simp [ih]
    · rw [if_neg ha]
      exact ih

/-- Counterexample to C2 as stated: with the working directory equal to
the user's home directory, the global step and the downward scan both
contribute `~/.yelm/agents.md`, so the sorted discovery list holds two
entries for the same physical directory (indeed the same file at two
levels). -/
theorem claim2_counterexample :
    ((discover exTree exHome DEFAULT_CONTEXT_CONFIG 0 DiscoveryState.init
        ⟨exHome, [], none⟩).fst.map fun r => parentDir r.path) =
      [["home", "user", ".yelm"], ["home", "user", ".yelm"],
        ["home", "user", "proj"], ["home", "user", "proj", "src"]] ∧
      ¬ ([["home", "user", ".yelm"], ["home", "user", ".yelm"],
        ["home", "user", "proj"],
        ["home", "user", "proj", "src"]] : List DirPath).Nodup := by
  exact ⟨by decide, by decide⟩

/-- C2 as amended: within each single discovery step the invariant holds —
the global step contributes at most one file; the downward scan
contributes at most one file per directory (its key list is duplicate
free), and that file is one of the directory's scanned files whose
hierarchy index is defined and minimal among the hierarchy files present
in that directory.  (Across steps the list is *not* deduplicated; see the
counterexample.) -/
theorem claim2_amended (fs : FsNode) (home : DirPath)
    (cfg : ContextFileConfig) (sr : ScanResult) (hier : List String) :
    (discoverGlobalFiles fs home cfg).length ≤ 1 ∧
      ((findContextFiles (buildFileIndex sr) hier).map Prod.fst).Nodup ∧
      ∀ d f, (d, f) ∈ findContextFiles (buildFileIndex sr) hier →
        f ∈ sr.files ∧ f.directory = d ∧ jsIndexOf hier f.name ≠ -1 ∧
          ∀ g ∈ sr.files, g.directory = d → jsIndexOf hier g.name ≠ -1 →
            jsIndexOf hier f.name ≤ jsIndexOf hier g.name := by
  obtain ⟨hnd, hgroups, -⟩ := byDirectory_spec sr
  refine ⟨?_, (findContextFiles_keys_sublist _ hier).nodup hnd, ?_⟩
  · rw [discoverGlobalFiles]
    exact globalLoop_len fs home cfg cfg.globalDirs
  · intro d f hdf
    rw [findContextFiles] at hdf
    obtain ⟨⟨d₀, g⟩, hg, heq⟩ := List.mem_filterMap.mp hdf
    cases hb : bestContextFile hier g with
    | none =>
      rw [hb] at heq
      simp at heq
    | some f₀ =>
      rw [hb] at heq
      simp only [Option.map_some', Option.some.injEq, Prod.mk.injEq] at heq
      obtain ⟨rfl, rfl⟩ := heq
      obtain ⟨hfmem, hfidx, hfmin⟩ := bestContextFile_spec hb
      have hge := hgroups _ g hg
      rw [hge] at hfmem
      have hff := List.mem_filter.mp hfmem
      refine ⟨hff.1, by simpa using hff.2, hfidx, ?_⟩
      intro gg hgg hggdir hggidx
      have hggmem : gg ∈ g := by
        rw [hge]
        exact List.mem_filter.mpr ⟨hgg, by simpa using hggdir⟩
      exact hfmin gg hggmem hggidx

/-- Witness for the amended C2: a two-file directory where `agents.md`
beats `GEMINI.md`. -/
theorem claim2_amended_witness :
    ((["d"] : DirPath),
        (⟨["d", "agents.md"], "agents.md", ["d"], "d/agents.md", 1, 2, 0⟩ :
          FileInfo)) ∈
      findContextFiles
        (buildFileIndex
          ⟨[⟨["d", "agents.md"], "agents.md", ["d"], "d/agents.md", 1, 2, 0⟩,
            ⟨["d", "GEMINI.md"], "GEMINI.md", ["d"], "d/GEMINI.md", 3, 4, 0⟩]
            , 1, 2, false⟩) DEFAULT_CONTEXT_HIERARCHY ∧
      jsIndexOf DEFAULT_CONTEXT_HIERARCHY "agents.md" ≠ -1 ∧
      jsIndexOf DEFAULT_CONTEXT_HIERARCHY "agents.md" ≤
        jsIndexOf DEFAULT_CONTEXT_HIERARCHY "GEMINI.md" := by
  have h := (claim2_amended exEmpty exHome DEFAULT_CONTEXT_CONFIG
    ⟨[⟨["d", "agents.md"], "agents.md", ["d"], "d/agents.md", 1, 2, 0⟩,
      ⟨["d", "GEMINI.md"], "GEMINI.md", ["d"], "d/GEMINI.md", 3, 4, 0⟩],
      1, 2, false⟩ DEFAULT_CONTEXT_HIERARCHY).2.2 ["d"]
    ⟨["d", "agents.md"], "agents.md", ["d"], "d/agents.md", 1, 2, 0⟩
    (by decide)
  exact ⟨by decide, h.2.2.1,
    h.2.2.2 ⟨["d", "GEMINI.md"], "GEMINI.md", ["d"], "d/GEMINI.md", 3, 4, 0⟩
      (by decide) (by decide) (by decide)⟩

theorem mapGet_delete (cache : List (DirPath × CacheEntry)) (k : DirPath) :
    mapGet (mapDelete cache k) k = none := by
  rw [mapGet, Option.map_eq_none', List.find?_eq_none]
  intro e he
  have := List.mem_filter.mp he
  simpa using this.2

/-- Counterexample to C3 as stated: after a first discovery caches an
entry for `proj/src`, touching that directory makes the next `discover`
invalidate and rescan — but the `misses` counter is *not* incremented
(the mtime-mismatch branch of `isCacheValid` deletes the entry and
returns without touching the metrics). -/
theorem claim3_counterexample :
    (mapGet (discover exTree exHome DEFAULT_CONTEXT_CONFIG 0
          DiscoveryState.init ⟨exWd, [], none⟩).snd.cache exWd).isSome =
        true ∧
      (discover exTree exHome DEFAULT_CONTEXT_CONFIG 0 DiscoveryState.init
          ⟨exWd, [], none⟩).snd.metrics = ⟨0, 1, 0⟩ ∧
      (isCacheValid exTreeTouched DEFAULT_CONTEXT_CONFIG 5
          (discover exTree exHome DEFAULT_CONTEXT_CONFIG 0
            DiscoveryState.init ⟨exWd, [], none⟩).snd exWd).fst = false ∧
      (discover exTreeTouched exHome DEFAULT_CONTEXT_CONFIG 5
          (discover exTree exHome DEFAULT_CONTEXT_CONFIG 0
            DiscoveryState.init ⟨exWd, [], none⟩).snd
          ⟨exWd, [], none⟩).snd.metrics = ⟨0, 1, 0⟩ ∧
      (discover exTreeTouched exHome DEFAULT_CONTEXT_CONFIG 5
          (discover exTree exHome DEFAULT_CONTEXT_CONFIG 0
            DiscoveryState.init ⟨exWd, [], none⟩).snd
          ⟨exWd, [], none⟩).fst =
        computeDiscovery exTreeTouched exHome DEFAULT_CONTEXT_CONFIG
          ⟨exWd, [], none⟩ ∧
      (mapGet (discover exTreeTouched exHome DEFAULT_CONTEXT_CONFIG 5
          (discover exTree exHome DEFAULT_CONTEXT_CONFIG 0
            DiscoveryState.init ⟨exWd, [], none⟩).snd
          ⟨exWd, [], none⟩).snd.cache exWd).map CacheEntry.timestamp =
        some 5 := by
  refine ⟨by decide, by decide, by decide, by decide, by decide, by decide⟩

/-- C3 as amended: a stale directory mtime (or a vanished directory)
makes `isCacheValid` report the entry invalid, removes it from the cache,
and the next `discover` call performs a fresh scan — but the `misses`
metric is left unchanged (only an absent or over-age entry increments
it). -/
theorem claim3_amended (fs : FsNode) (home : DirPath)
    (cfg : ContextFileConfig) (now : Nat) (st : DiscoveryState)
    (key : DirPath) (entry : CacheEntry)
    (hget : mapGet st.cache key = some entry)
    (hage : ¬ ((cfg.maxCacheAge : Int) < (now : Int) - (entry.timestamp : Int)))
    (hchanged : dirsUnchanged fs entry.dirModTimes = false) :
    (isCacheValid fs cfg now st key).fst = false ∧
      mapGet (isCacheValid fs cfg now st key).snd.cache key = none ∧
      (isCacheValid fs cfg now st key).snd.metrics = st.metrics ∧
      ∀ opts : DiscoveryOptions, opts.workingDir = key →
        cfg.cacheEnabled = true →
        (discover fs home cfg now st opts).fst =
          computeDiscovery fs home cfg opts := by
  have hvalid : isCacheValid fs cfg now st key =
      (false,
        { st with cache := (mapDelete
            (mapSet st.cache key { entry with lastAccessed := now }) key) }) := by
    rw [isCacheValid, hget]
    simp only [if_neg hage, hchanged]
    rfl
  refine ⟨by rw [hvalid], by rw [hvalid]; exact mapGet_delete _ _,
    by rw [hvalid], ?_⟩
  intro opts hwd hen
  rw [discover, hwd]
  simp only [hen, if_pos rfl, hvalid]
  rfl

/-- Witness for the amended C3 at the touched scenario tree. -/
theorem claim3_amended_witness :
    (isCacheValid exTreeTouched DEFAULT_CONTEXT_CONFIG 5
        (discover exTree exHome DEFAULT_CONTEXT_CONFIG 0 DiscoveryState.init
          ⟨exWd, [], none⟩).snd exWd).fst = false ∧
      (discover exTreeTouched exHome DEFAULT_CONTEXT_CONFIG 5
          (discover exTree exHome DEFAULT_CONTEXT_CONFIG 0
            DiscoveryState.init ⟨exWd, [], none⟩).snd ⟨exWd, [], none⟩).fst =
        computeDiscovery exTreeTouched exHome DEFAULT_CONTEXT_CONFIG
          ⟨exWd, [], none⟩ := by
  have h := claim3_amended exTreeTouched exHome DEFAULT_CONTEXT_CONFIG 5
    (discover exTree exHome DEFAULT_CONTEXT_CONFIG 0 DiscoveryState.init
      ⟨exWd, [], none⟩).snd exWd
    ⟨[⟨["home", "user", ".yelm", "agents.md"], "agents.md", 0, 10, -1⟩,
      ⟨["home", "user", "proj", "src", "GEMINI.md"], "GEMINI.md", 2, 30, 0⟩],
      0, [(["home", "user", "proj", "src"], 7), (["home", "user", ".yelm"], 4)],
      0⟩
    (by decide) (by decide) (by decide)
  exact ⟨h.1, h.2.2.2 ⟨exWd, [], none⟩ rfl rfl⟩

theorem find_append (n : FsNode) :
    ∀ (p q : DirPath), n.find (p ++ q) = (n.find p).bind (fun c => c.find q) := by
  intro p
  induction p generalizing n with
  | nil => intro q; simp [FsNode.find]
  | cons s rest ih =>
    intro q
    cases n with
    | file m sz ct r => simp [FsNode.find]
    | dir m r es =>
      simp only [List.cons_append, FsNode.find]
      cases es.find? (fun e => e.fst = s) with
      | none => simp
      | some e => exact ih e.snd q

theorem find?_entry_of_nodup {es : List (String × FsNode)} {nm : String}
    {c : FsNode} (hnd : distinctNames (es.map Prod.fst) = true)
    (hmem : (nm, c) ∈ es) :
    es.find? (fun e => e.fst = nm) = some (nm, c) := by
  induction es with
  | nil => simp at hmem
  | cons e rest ih =>
    obtain ⟨a, b⟩ := e
    simp only [List.map_cons, distinctNames, Bool.and_eq_true,
      Bool.not_eq_true'] at hnd
    rcases List.mem_cons.mp hmem with h | h
    · obtain ⟨rfl, rfl⟩ := Prod.mk.injEq .. ▸ h
      exact List.find?_cons_of_pos _ (by simp)
    · by_cases ha : a = nm
      · subst ha
        have : a ∈ rest.map Prod.fst := List.mem_map_of_mem _ h
        have hnotm : a ∉ rest.map Prod.fst := by simpa using hnd.1
        exact absurd this hnotm
      · have hd : (decide (a = nm)) = false := by simpa using ha
        simpa [List.find?, hd] using ih hnd.2 h

theorem find_child {fs : FsNode} {p : DirPath} {nm : String} {m : Nat}
    {r : Bool} {es : List (String × FsNode)} {c : FsNode}
    (hp : fs.find p = some (.dir m r es))
    (hnd : distinctNames (es.map Prod.fst) = true) (hmem : (nm, c) ∈ es) :
    fs.find (p ++ [nm]) = some c := by
  have h1 : fs.find (p ++ [nm]) = (FsNode.dir m r es).find [nm] := by
    rw [find_append, hp]
    rfl
  rw [h1]
  show (match es.find? (fun e => e.fst = nm) with
    | some e => e.snd.find ([] : DirPath)
    | none => none) = some c
  rw [find?_entry_of_nodup hnd hmem]
  simp [FsNode.find]

theorem find_parent_isSome {fs : FsNode} {p : DirPath}
    (h : (fs.find p).isSome = true) :
    (fs.find (parentDir p)).isSome = true := by
  by_cases hne : p = []
  · subst hne
    simpa [parentDir] using h
  · have hsplit : p.dropLast ++ [p.getLast hne] = p :=
      List.dropLast_append_getLast hne
    have h2 : (fs.find (p.dropLast ++ [p.getLast hne])).isSome = true := by
      rw [hsplit]
      exact h
    rw [find_append] at h2
    rw [parentDir]
    cases hq : fs.find p.dropLast with
    | none => rw [hq] at h2; simp at h2
    | some c => simp [hq]

theorem mem_childFiles {opts : ScanOptions} {rootDir p : DirPath}
    {es : List (String × FsNode)} {depth : Nat} {f : FileInfo}
    (h : f ∈ childFiles opts rootDir p es depth) :
    ∃ nm c, (nm, c) ∈ es ∧ c.isFileB = true ∧ f.path = p ++ [nm] := by
  induction es with
  | nil => simp [childFiles] at h
  | cons ent rest ih =>
    obtain ⟨nm, c⟩ := ent
    rw [childFiles_cons] at h
    rcases List.mem_append.mp h with h | h
    · by_cases hf : c.isFileB = true
      · rw [if_pos hf] at h
        rw [createFileInfo.eq_def] at h
        by_cases hg : gitIgnored opts (p ++ [nm]) = true
        · rw [if_pos hg] at h
          simp at h
        · rw [if_neg hg] at h
          simp only [Option.toList_some, List.mem_singleton] at h
          subst h
          exact ⟨nm, c, List.mem_cons_self _ _, hf, rfl⟩
      · rw [if_neg hf] at h
        simp at h
    · obtain ⟨nm', c', hmem, hfile, hpath⟩ := ih h
      exact ⟨nm', c', List.mem_cons_of_mem _ hmem, hfile, hpath⟩

theorem scanLoop_files_exist (fs : FsNode) (opts : ScanOptions)
    (rootDir : DirPath) :
    ∀ (fuel : Nat) (q : List QEntry) (visited : List DirPath)
      (scanned : Nat) (acc : List FileInfo),
      (∀ e ∈ q, fs.find e.path = some e.node ∧ wfNode e.node = true) →
      (∀ f ∈ acc, (fs.find f.path).isSome = true) →
      ∀ f ∈ (scanLoop opts rootDir fuel q visited scanned acc).fst,
        (fs.find f.path).isSome = true := by
  intro fuel
  induction fuel with
  | zero =>
    intro q visited scanned acc _ hacc
    cases q <;> simpa [scanLoop] using hacc
  | succ fuel ih =>
    intro q visited scanned acc hq hacc
    cases q with
    | nil => simpa [scanLoop] using hacc
    | cons e rest =>
      have hqrest : ∀ a ∈ rest, fs.find a.path = some a.node ∧
          wfNode a.node = true :=
        fun a ha => hq a (List.mem_cons_of_mem _ ha)
      simp only [scanLoop]
      by_cases hlt : scanned < opts.maxDirs
      · rw [if_pos hlt]
        by_cases hv : visited.contains e.path = true
        · rw [if_pos hv]
          exact ih rest visited scanned acc hqrest hacc
        · rw [if_neg hv]
          by_cases hdep : opts.maxDepth < e.depth
          · rw [if_pos hdep]
            exact ih rest _ scanned acc hqrest hacc
          · rw [if_neg hdep]
            by_cases hig : shouldIgnoreDirectory e.path opts.ignorePatterns
              = true
            · rw [if_pos hig]
              exact ih rest _ scanned acc hqrest hacc
            · rw [if_neg hig]
              by_cases hgi : gitIgnored opts e.path = true
              · rw [if_pos hgi]
                exact ih rest _ scanned acc hqrest hacc
              · rw [if_neg hgi]
                obtain ⟨hfind, hwf⟩ := hq e (List.mem_cons_self _ _)
                cases hnode : e.node with
                | file m s ct r =>
                  exact ih rest _ (scanned + 1) acc hqrest hacc
                | dir m rb es =>
                  cases rb with
                  | true =>
                    rw [hnode] at hfind hwf
                    obtain ⟨hnd, hwfl⟩ := wfNode_dir hwf
                    refine ih _ _ (scanned + 1) _ ?_ ?_
                    · intro a ha
                      rcases List.mem_append.mp ha with ha | ha
                      · exact hqrest a ha
                      · obtain ⟨nm, hmem, hpath, _, _⟩ := mem_childEntries ha
                        refine ⟨?_, wfList_mem hwfl hmem⟩
                        rw [hpath]
                        exact find_child hfind hnd hmem
                    · intro f hf
                      rcases List.mem_append.mp hf with hf | hf
                      · exact hacc f hf
                      · obtain ⟨nm, c, hmem, _, hpath⟩ := mem_childFiles hf
                        rw [hpath, find_child hfind hnd hmem]
                        rfl
                  | false =>
                    exact ih rest _ (scanned + 1) acc hqrest hacc
      · rw [if_neg hlt]
        exact hacc

/-- Every file indexed by a successful scan exists on the filesystem. -/
theorem scanDirectory_files_exist {fs : FsNode} {root : DirPath}
    {opts : ScanOptions} {sr : ScanResult} {n : FsNode}
    (hwf : wfNode n = true) (hfind : fs.find root = some n)
    (hok : scanDirectory fs root opts = .ok sr) :
    ∀ f ∈ sr.files, (fs.find f.path).isSome = true := by
  by_cases hdir : n.isDirB = true
  · simp only [scanDirectory, hfind, if_pos hdir] at hok
    cases hok
    intro f hf
    refine scanLoop_files_exist fs opts root n.size [⟨root, n, 0⟩] [] 0 []
      ?_ (by simp) f hf
    intro e he
    simp only [List.mem_singleton] at he
    subst he
    exact ⟨hfind, hwf⟩
  · simp only [scanDirectory, hfind, if_neg hdir] at hok
    cases hok

theorem mem_stableInsert {le : ContextFileResult → ContextFileResult → Bool}
    {x y : ContextFileResult} {l : List ContextFileResult}
    (h : y ∈ stableInsert le x l) : y = x ∨ y ∈ l := by
  induction l with
  | nil => simpa [stableInsert] using h
  | cons z zs ih =>
    rw [stableInsert] at h
    by_cases hc : (le z x && !le x z) = true
    · rw [if_pos hc] at h
      rcases List.mem_cons.mp h with h | h
      · exact Or.inr (h ▸ List.mem_cons_self _ _)
      · rcases ih h with h | h
        · exact Or.inl h
        · exact Or.inr (List.mem_cons_of_mem _ h)
    · rw [if_neg hc] at h
      rcases List.mem_cons.mp h with h | h
      · exact Or.inl h
      · exact Or.inr h

theorem mem_stableSort {le : ContextFileResult → ContextFileResult → Bool}
    {y : ContextFileResult} {l : List ContextFileResult}
    (h : y ∈ stableSort le l) : y ∈ l := by
  induction l with
  | nil => simp [stableSort] at h
  | cons x xs ih =>
    rw [stableSort] at h
    rcases mem_stableInsert h with h | h
    · exact h ▸ List.mem_cons_self _ _
    · exact List.mem_cons_of_mem _ (ih h)

theorem checkFile_path_exists {fs : FsNode} {d : DirPath} {fn : String}
    {i : Nat} {r : ContextFileResult} (h : checkFile fs d fn i = some r) :
    (fs.find r.path).isSome = true := by
  rw [checkFile] at h
  cases hf : fs.find (resolveContextFilePath fn d) with
  | none => rw [hf] at h; cases h
  | some n =>
    cases n with
    | file m s ct rb =>
      rw [hf] at h
      simp only [Option.some.injEq] at h
      subst h
      simp [hf]
    | dir m rb es => rw [hf] at h; cases h

theorem searchHierarchy_path_exists {fs : FsNode} {d : DirPath}
    {r : ContextFileResult} :
    ∀ {l : List (Nat × String)}, searchHierarchy fs d l = some r →
      (fs.find r.path).isSome = true := by
  intro l
  induction l with
  | nil => intro h; cases h
  | cons e rest ih =>
    intro h
    obtain ⟨i, fn⟩ := e
    rw [searchHierarchy] at h
    cases hc : checkFile fs d fn i with
    | none => rw [hc] at h; exact ih h
    | some r₀ =>
      rw [hc] at h
      cases h
      exact checkFile_path_exists hc

theorem findInDirectory_path_exists {fs : FsNode} {cfg : ContextFileConfig}
    {d : DirPath} {r : ContextFileResult}
    (h : findInDirectory fs cfg d = some r) :
    (fs.find r.path).isSome = true := by
  rw [findInDirectory] at h
  by_cases ha : accessOk fs d = true
  · rw [if_pos ha] at h
    exact searchHierarchy_path_exists h
  · rw [if_neg ha] at h
    cases h

theorem globalLoop_path_exists {fs : FsNode} {home : DirPath}
    {cfg : ContextFileConfig} {r : ContextFileResult} :
    ∀ {dirs : List String}, r ∈ discoverGlobalFiles.loop fs home cfg dirs →
      (fs.find r.path).isSome = true := by
  intro dirs
  induction dirs with
  | nil => intro h; simp [discoverGlobalFiles.loop] at h
  | cons gd rest ih =>
    intro h
    rw [discoverGlobalFiles.loop] at h
    by_cases ha : accessOk fs (home ++ [gd]) = true
    · rw [if_pos ha] at h
      cases hf : findInDirectory fs cfg (home ++ [gd]) with
      | none => rw [hf] at h; exact ih h
      | some r₀ =>
        rw [hf] at h
        simp only [List.mem_singleton] at h
        subst h
        simpa using findInDirectory_path_exists hf
    · rw [if_neg ha] at h
      exact ih h

theorem findContextFiles_mem_files {sr : ScanResult} {hier : List String}
    {d : DirPath} {f : FileInfo}
    (h : (d, f) ∈ findContextFiles (buildFileIndex sr) hier) :
    f ∈ sr.files := by
  obtain ⟨-, hgroups, -⟩ := byDirectory_spec sr
  rw [findContextFiles] at h
  obtain ⟨⟨d₀, g⟩, hg, heq⟩ := List.mem_filterMap.mp h
  cases hb : bestContextFile hier g with
  | none =>
    rw [hb] at heq
    simp at heq
  | some f₀ =>
    rw [hb] at heq
    simp only [Option.map_some', Option.some.injEq, Prod.mk.injEq] at heq
    obtain ⟨rfl, rfl⟩ := heq
    obtain ⟨hfmem, -, -⟩ := bestContextFile_spec hb
    have hge := hgroups _ g hg
    rw [hge] at hfmem
    exact (List.mem_filter.mp hfmem).1

theorem processExtensionFiles_path_exists {fs : FsNode}
    {l : List DirPath} {r : ContextFileResult}
    (h : r ∈ processExtensionFiles fs l) : (fs.find r.path).isSome = true := by
  rw [processExtensionFiles] at h
  obtain ⟨p, -, heq⟩ := List.mem_filterMap.mp h
  cases hf : fs.find p with
  | none => rw [hf] at heq; cases heq
  | some n =>
    cases n with
    | file m s ct rb =>
      rw [hf] at heq
      simp only [Option.some.injEq] at heq
      subst heq
      simp [hf]
    | dir m rb es => rw [hf] at heq; cases heq

/-- Every result of a fresh discovery names an existing file, provided the
working directory is a well-formed directory. -/
theorem computeDiscovery_path_exists {fs : FsNode} {home : DirPath}
    {cfg : ContextFileConfig} {opts : DiscoveryOptions} {wnode : FsNode}
    (hwd : fs.find opts.workingDir = some wnode)
    (hdir : wnode.isDirB = true) (hwf : wfNode wnode = true) :
    ∀ r ∈ computeDiscovery fs home cfg opts,
      (fs.find r.path).isSome = true := by
  intro r hr
  have hr' := mem_stableSort hr
  rcases List.mem_append.mp hr' with hr' | hr'
  · rcases List.mem_append.mp hr' with hr' | hr'
    · rw [discoverGlobalFiles] at hr'
      exact globalLoop_path_exists hr'
    · rw [discoverProjectFilesOptimized] at hr'
      have hok : scanDirectory fs opts.workingDir
          ⟨cfg.maxDepth, cfg.maxDirs, cfg.ignorePatterns, opts.fileService⟩ =
          .ok
            { files := (scanLoop
                ⟨cfg.maxDepth, cfg.maxDirs, cfg.ignorePatterns,
                  opts.fileService⟩ opts.workingDir wnode.size
                [⟨opts.workingDir, wnode, 0⟩] [] 0 []).1
              directoriesScanned := (scanLoop
                ⟨cfg.maxDepth, cfg.maxDirs, cfg.ignorePatterns,
                  opts.fileService⟩ opts.workingDir wnode.size
                [⟨opts.workingDir, wnode, 0⟩] [] 0 []).2
              filesFound := (scanLoop
                ⟨cfg.maxDepth, cfg.maxDirs, cfg.ignorePatterns,
                  opts.fileService⟩ opts.workingDir wnode.size
                [⟨opts.workingDir, wnode, 0⟩] [] 0 []).1.length
              limitReached := decide (cfg.maxDirs ≤ (scanLoop
                ⟨cfg.maxDepth, cfg.maxDirs, cfg.ignorePatterns,
                  opts.fileService⟩ opts.workingDir wnode.size
                [⟨opts.workingDir, wnode, 0⟩] [] 0 []).2) } := by
        simp [scanDirectory, hwd, hdir]
      rw [scanForContextFiles, hok] at hr'
      simp only [Except.map_ok] at hr'
      obtain ⟨⟨d₀, fi⟩, hg, heq⟩ := List.mem_filterMap.mp hr'
      by_cases hp : jsIndexOf cfg.hierarchy fi.name ≠ -1
      · rw [if_pos hp] at heq
        simp only [Option.some.injEq] at heq
        subst heq
        have hmem := findContextFiles_mem_files hg
        exact scanDirectory_files_exist hwf hwd hok fi hmem
      · rw [if_neg hp] at heq
        cases heq
  · exact processExtensionFiles_path_exists hr'

theorem mem_dirsToCheck {wd : DirPath} {results : List ContextFileResult}
    {d : DirPath} (h : d ∈ dirsToCheck wd results) :
    d = wd ∨ ∃ r ∈ results, d = parentDir r.path := by
  rw [dirsToCheck] at h
  suffices haux : ∀ (l : List ContextFileResult) (acc : List DirPath),
      d ∈ l.foldl (fun acc r => dedupPush acc (parentDir r.path))
        acc → d ∈ acc ∨ ∃ r ∈ l, d = parentDir r.path by
    rcases haux results [wd] h with hacc | hex
    · simp only [List.mem_singleton] at hacc
      exact Or.inl hacc
    · exact Or.inr hex
  intro l
  induction l with
  | nil =>
    intro acc hmem
    exact Or.inl hmem
  | cons r rest ih =>
    intro acc hmem
    rcases ih _ hmem with hacc | hex
    · simp only [dedupPush] at hacc
      by_cases hin : parentDir r.path ∈ acc
      · rw [if_pos hin] at hacc
        exact Or.inl hacc
      · rw [if_neg hin] at hacc
        rcases List.mem_append.mp hacc with hacc | hacc
        · exact Or.inl hacc
        · simp only [List.mem_singleton] at hacc
          exact Or.inr ⟨r, List.mem_cons_self _ _, hacc⟩
    · obtain ⟨r', hr', heq⟩ := hex
      exact Or.inr ⟨r', List.mem_cons_of_mem _ hr', heq⟩

theorem collect_unchanged (fs : FsNode) :
    ∀ dirs : List DirPath, (∀ d ∈ dirs, (fs.find d).isSome = true) →
      ∃ dmt, collectDirModTimes fs dirs = some dmt ∧
        dirsUnchanged fs dmt = true := by
  intro dirs
  induction dirs with
  | nil => intro _; exact ⟨[], rfl, rfl⟩
  | cons d ds ih =>
    intro hall
    obtain ⟨dmt, hcol, hunch⟩ := ih fun x hx =>
      hall x (List.mem_cons_of_mem _ hx)
    have hd := hall d (List.mem_cons_self _ _)
    cases hf : fs.find d with
    | none => rw [hf] at hd; cases hd
    | some n =>
      refine ⟨(d, n.mtimeOf) :: dmt, ?_, ?_⟩
      · rw [collectDirModTimes, hf, hcol]
        rfl
      · rw [dirsUnchanged, hf]
        simp [hunch]

theorem evict_empty (cfg : ContextFileConfig) (now : Nat)
    (m : CacheMetrics) : evictIfNeeded cfg now ⟨[], m⟩ = ⟨[], m⟩ := by
  rw [evictIfNeeded]
  by_cases hc : ([] : List (DirPath × CacheEntry)).length < cfg.maxCacheSize
  · rw [if_pos hc]
  · rw [if_neg hc]
    rfl

/-- Claim C7: calling `discover` twice for the same (existing, readable,
well-formed) working directory with caching enabled, the same filesystem
snapshot, and less than `maxCacheAge` between the calls: the second call
returns exactly the cached list of the first, bumps `hits`, and leaves
`misses` alone. -/
theorem claim7_cache_hit (fs : FsNode) (home : DirPath)
    (cfg : ContextFileConfig) (now₁ now₂ : Nat) (opts : DiscoveryOptions)
    (wnode : FsNode) (hen : cfg.cacheEnabled = true)
    (hwd : fs.find opts.workingDir = some wnode)
    (hdir : wnode.isDirB = true) (hwf : wfNode wnode = true)
    (hage : (now₂ : Int) - (now₁ : Int) ≤ (cfg.maxCacheAge : Int)) :
    (discover fs home cfg now₂
        (discover fs home cfg now₁ DiscoveryState.init opts).snd opts).fst =
      (discover fs home cfg now₁ DiscoveryState.init opts).fst ∧
      (discover fs home cfg now₂
        (discover fs home cfg now₁ DiscoveryState.init opts).snd
          opts).snd.metrics.hits =
        (discover fs home cfg now₁ DiscoveryState.init
          opts).snd.metrics.hits + 1 ∧
      (discover fs home cfg now₂
        (discover fs home cfg now₁ DiscoveryState.init opts).snd
          opts).snd.metrics.misses =
        (discover fs home cfg now₁ DiscoveryState.init
          opts).snd.metrics.misses := by
  have hpaths : ∀ d ∈ dirsToCheck opts.workingDir
      (computeDiscovery fs home cfg opts), (fs.find d).isSome = true := by
    intro d hd
    rcases mem_dirsToCheck hd with rfl | ⟨r, hr, rfl⟩
    · rw [hwd]
      rfl
    · exact find_parent_isSome
        (computeDiscovery_path_exists hwd hdir hwf r hr)
  obtain ⟨dmt, hcol, hunch⟩ := collect_unchanged fs _ hpaths
  have hic1 : isCacheValid fs cfg now₁ DiscoveryState.init opts.workingDir =
      (false, ⟨[], 0, 1, 0⟩) := rfl
  have hdisc1 : discover fs home cfg now₁ DiscoveryState.init opts =
      (computeDiscovery fs home cfg opts,
        ⟨[(opts.workingDir,
          ⟨computeDiscovery fs home cfg opts, now₁, dmt, now₁⟩)],
          0, 1, 0⟩) := by
    simp [discover, hen, hic1, cacheResults, hcol, evict_empty, mapSet]
  have hage' : ¬ ((cfg.maxCacheAge : Int) <
      (now₂ : Int) - ((now₁ : Nat) : Int)) := by
    push_neg
    exact hage
  have hic2 : isCacheValid fs cfg now₂
      (⟨[(opts.workingDir,
        ⟨computeDiscovery fs home cfg opts, now₁, dmt, now₁⟩)],
        0, 1, 0⟩ : DiscoveryState) opts.workingDir =
      (true, ⟨[(opts.workingDir,
        ⟨computeDiscovery fs home cfg opts, now₁, dmt, now₂⟩)],
        1, 1, 0⟩) := by
    rw [isCacheValid]
    have hget : mapGet [(opts.workingDir,
        ⟨computeDiscovery fs home cfg opts, now₁, dmt, now₁⟩)]
        opts.workingDir =
        some ⟨computeDiscovery fs home cfg opts, now₁, dmt, now₁⟩ := by
      simp [mapGet]
    rw [hget]
    simp [hage', hunch, mapSet]
  rw [hdisc1]
  rw [discover]
  simp only [hen, if_pos rfl, hic2]
  have hget2 : mapGet [(opts.workingDir,
      ⟨computeDiscovery fs home cfg opts, now₁, dmt, now₂⟩)]
      opts.workingDir =
      some ⟨computeDiscovery fs home cfg opts, now₁, dmt, now₂⟩ := by
    simp [mapGet]
  simp [hget2]

/-- Witness for C7 at the scenario tree. -/
theorem claim7_cache_hit_witness :
    (discover exTree exHome DEFAULT_CONTEXT_CONFIG 5
        (discover exTree exHome DEFAULT_CONTEXT_CONFIG 0
          DiscoveryState.init ⟨exWd, [], none⟩).snd ⟨exWd, [], none⟩).fst =
      (discover exTree exHome DEFAULT_CONTEXT_CONFIG 0 DiscoveryState.init
        ⟨exWd, [], none⟩).fst ∧
      (discover exTree exHome DEFAULT_CONTEXT_CONFIG 5
        (discover exTree exHome DEFAULT_CONTEXT_CONFIG 0
          DiscoveryState.init ⟨exWd, [], none⟩).snd
        ⟨exWd, [], none⟩).snd.metrics = ⟨1, 1, 0⟩ :=
  ⟨(claim7_cache_hit exTree exHome DEFAULT_CONTEXT_CONFIG 0 5
      ⟨exWd, [], none⟩ (.dir 7 true [("GEMINI.md", .file 30 7 "gemini stuff" true)])
      rfl rfl rfl (by decide) (by decide)).1,
    by decide⟩

theorem collisionScan_append (l₁ l₂ : List LegacyFile)
    (st : List DirPath × List String × Bool) :
    collisionScan (l₁ ++ l₂) st = collisionScan l₂ (collisionScan l₁ st) := by
  induction l₁ generalizing st with
  | nil => rfl
  | cons f rest ih =>
    obtain ⟨t, w, fl⟩ := st
    simp only [List.cons_append, collisionScan]
    exact ih _

theorem collisionScan_targets (l : List LegacyFile) :
    ∀ st : List DirPath × List String × Bool,
      (collisionScan l st).fst = st.fst ++ l.map LegacyFile.suggestedPath := by
  induction l with
  | nil => intro st; simp [collisionScan]
  | cons f rest ih =>
    intro ⟨t, w, fl⟩
    simp only [collisionScan, List.map_cons]
    rw [ih]
    simp

theorem collisionScan_false (l : List LegacyFile) :
    ∀ t w, (collisionScan l (t, w, false)).snd.snd = false := by
  induction l with
  | nil => intro t w; rfl
  | cons f rest ih =>
    intro t w
    simp only [collisionScan]
    by_cases hit : f.suggestedPath ∈ t <;> simp [hit, ih]

theorem collisionScan_warnings (l : List LegacyFile) :
    ∀ (st : List DirPath × List String × Bool) (x : String),
      x ∈ st.snd.fst → x ∈ (collisionScan l st).snd.fst := by
  induction l with
  | nil => intro st x hx; exact hx
  | cons f rest ih =>
    intro ⟨t, w, fl⟩ x hx
    simp only [collisionScan]
    by_cases hit : f.suggestedPath ∈ t
    · simp only [hit, if_pos rfl]
      exact ih _ x (List.mem_append_left _ hx)
    · simp only [hit]
      exact ih _ x (by simpa [hit] using hx)

theorem collisionScan_hit (l : List LegacyFile) :
    ∀ (t : List DirPath) (w : List String) (fl : Bool) (g : LegacyFile),
      g ∈ l → g.suggestedPath ∈ t →
      (collisionScan l (t, w, fl)).snd.snd = false ∧
        collisionWarning g.suggestedPath ∈ (collisionScan l (t, w, fl)).snd.fst := by
  induction l with
  | nil => intro t w fl g hg; simp at hg
  | cons f rest ih =>
    intro t w fl g hg ht
    rcases List.mem_cons.mp hg with rfl | hg
    · simp only [collisionScan, ht, if_pos rfl]
      exact ⟨collisionScan_false rest _ _,
        collisionScan_warnings rest _ _ (List.mem_append_right _
          (List.mem_singleton.mpr rfl))⟩
    · have h2 := ih (t ++ [f.suggestedPath])
        (if f.suggestedPath ∈ t then w ++ [collisionWarning f.suggestedPath]
          else w)
        (if f.suggestedPath ∈ t then false else fl) g hg
        (List.mem_append_left _ ht)
      simpa only [collisionScan] using h2

theorem existsScan_false (existsOnDisk : DirPath → Bool)
    (l : List LegacyFile) :
    ∀ w, (existsScan existsOnDisk l (w, false)).snd = false := by
  induction l with
  | nil => intro w; rfl
  | cons f rest ih =>
    intro w
    simp only [existsScan]
    by_cases he : existsOnDisk f.suggestedPath = true <;> simp [he, ih]

theorem existsScan_warnings (existsOnDisk : DirPath → Bool)
    (l : List LegacyFile) :
    ∀ (st : List String × Bool) (x : String), x ∈ st.fst →
      x ∈ (existsScan existsOnDisk l st).fst := by
  induction l with
  | nil => intro st x hx; exact hx
  | cons f rest ih =>
    intro ⟨w, fl⟩ x hx
    simp only [existsScan]
    by_cases he : existsOnDisk f.suggestedPath = true
    · simp only [he, if_pos rfl]
      exact ih _ x (List.mem_append_left _ hx)
    · simp only [he]
      exact ih _ x (by simpa [he] using hx)

theorem existsScan_hit (existsOnDisk : DirPath → Bool)
    (l : List LegacyFile) :
    ∀ (w : List String) (fl : Bool) (f : LegacyFile), f ∈ l →
      existsOnDisk f.suggestedPath = true →
      (existsScan existsOnDisk l (w, fl)).snd = false ∧
        existsWarning f.suggestedPath ∈
          (existsScan existsOnDisk l (w, fl)).fst := by
  induction l with
  | nil => intro w fl f hf; simp at hf
  | cons g rest ih =>
    intro w fl f hf he
    rcases List.mem_cons.mp hf with rfl | hf
    · simp only [existsScan, he, if_pos rfl]
      exact ⟨existsScan_false existsOnDisk rest _,
        existsScan_warnings existsOnDisk rest _ _ (List.mem_append_right _
          (List.mem_singleton.mpr rfl))⟩
    · by_cases hge : existsOnDisk g.suggestedPath = true
      · have h2 := ih (w ++ [existsWarning g.suggestedPath]) false f hf he
        simpa [existsScan, hge] using h2
      · have h2 := ih w fl f hf he
        simpa [existsScan, hge] using h2

/-- Claim C8: duplicate suggested targets make the plan non-auto-
executable with a collision warning covering both files, and an already
existing target likewise blocks auto-migration with a warning. -/
theorem claim8_migration_conflicts (existsOnDisk : DirPath → Bool)
    (files : List LegacyFile) :
    (∀ l₁ f l₂ g l₃, files = l₁ ++ f :: l₂ ++ g :: l₃ →
      f.suggestedPath = g.suggestedPath →
      (suggestMigration existsOnDisk files).canAutoMigrate = false ∧
        canAutoMigratePlan (suggestMigration existsOnDisk files) = false ∧
        collisionWarning g.suggestedPath ∈
          (suggestMigration existsOnDisk files).warnings ∧
        f ∈ (suggestMigration existsOnDisk files).files ∧
        g ∈ (suggestMigration existsOnDisk files).files) ∧
      (∀ f ∈ files, existsOnDisk f.suggestedPath = true →
        (suggestMigration existsOnDisk files).canAutoMigrate = false ∧
          canAutoMigratePlan (suggestMigration existsOnDisk files) = false ∧
          existsWarning f.suggestedPath ∈
            (suggestMigration existsOnDisk files).warnings) := by
  constructor
  · intro l₁ f l₂ g l₃ hsplit hdup
    have hg : g ∈ l₂ ++ g :: l₃ :=
      List.mem_append_right _ (List.mem_cons_self _ _)
    have htarget : g.suggestedPath ∈
        (collisionScan (l₁ ++ [f]) ([], [], true)).fst := by
      rw [collisionScan_targets]
      simp [← hdup]
    have hrest := collisionScan_hit (l₂ ++ g :: l₃)
      (collisionScan (l₁ ++ [f]) ([], [], true)).fst
      (collisionScan (l₁ ++ [f]) ([], [], true)).snd.fst
      (collisionScan (l₁ ++ [f]) ([], [], true)).snd.snd g hg htarget
    have hcolAll : (collisionScan files ([], [], true)).snd.snd = false ∧
        collisionWarning g.suggestedPath ∈
          (collisionScan files ([], [], true)).snd.fst := by
      have hform : files = (l₁ ++ [f]) ++ (l₂ ++ g :: l₃) := by
        rw [hsplit]
        simp
      rw [hform, collisionScan_append]
      exact hrest
    rw [suggestMigration]
    refine ⟨?_, ?_, ?_, ?_, ?_⟩
    · simp only
      rw [show ((collisionScan files ([], [], true)).snd.fst,
          (collisionScan files ([], [], true)).snd.snd) =
          (collisionScan files ([], [], true)).snd from rfl]
      cases hcs : (collisionScan files ([], [], true)).snd with
      | mk w fl =>
        rw [hcs] at hcolAll
        simp only at hcolAll
        rw [hcolAll.1]
        exact existsScan_false existsOnDisk files w
    · rw [canAutoMigratePlan]
      simp only
      rw [show ((collisionScan files ([], [], true)).snd.fst,
          (collisionScan files ([], [], true)).snd.snd) =
          (collisionScan files ([], [], true)).snd from rfl]
      cases hcs : (collisionScan files ([], [], true)).snd with
      | mk w fl =>
        rw [hcs] at hcolAll
        simp only at hcolAll
        rw [hcolAll.1]
        simp [existsScan_false existsOnDisk files w]
    · simp only
      rw [show ((collisionScan files ([], [], true)).snd.fst,
          (collisionScan files ([], [], true)).snd.snd) =
          (collisionScan files ([], [], true)).snd from rfl]
      cases hcs : (collisionScan files ([], [], true)).snd with
      | mk w fl =>
        rw [hcs] at hcolAll
        simp only at hcolAll
        exact existsScan_warnings existsOnDisk files _ _ hcolAll.2
    · rw [hsplit]
      simp
    · rw [hsplit]
      simp
  · intro f hf he
    have hes := existsScan_hit existsOnDisk files
      (collisionScan files ([], [], true)).snd.fst
      (collisionScan files ([], [], true)).snd.snd f hf he
    rw [suggestMigration]
    exact ⟨hes.1, by rw [canAutoMigratePlan]; simp [hes.1], hes.2⟩

/-- Witness for C8 at the colliding pair and an existing target. -/
theorem claim8_migration_conflicts_witness :
    suggestMigration (fun _ => false) [exLegacyA, exLegacyB] =
      ⟨[exLegacyA, exLegacyB], false,
        ["Multiple files would be migrated to /p/agents.md"],
        "Migration will 2 files to rename"⟩ ∧
      (suggestMigration (fun _ => false)
        [exLegacyA, exLegacyB]).canAutoMigrate = false ∧
      canAutoMigratePlan (suggestMigration
        (fun p => p = ["p", "agents.md"]) [exLegacyA]) = false := by
  refine ⟨by decide, ?_, ?_⟩
  · exact ((claim8_migration_conflicts (fun _ => false)
      [exLegacyA, exLegacyB]).1 [] exLegacyA [] exLegacyB [] (by decide)
      (by decide)).1
  · exact ((claim8_migration_conflicts (fun p => p = ["p", "agents.md"])
      [exLegacyA]).2 exLegacyA (by decide) (by decide)).2.1

/-- Claim C9: when discovery finds no context files for the working
directory, `loadContextFiles` returns the empty load result
`{content: "", fileCount: 0, files: [], fileNames: []}` rather than an
error. -/
theorem claim9_empty_load (fs : FsNode) (home : DirPath)
    (cfg : ContextFileConfig) (now : Nat) (st : DiscoveryState)
    (opts : LoadOptions)
    (h : (discover fs home cfg now st
      ⟨opts.workingDir, opts.extensionContextFiles, none⟩).fst = []) :
    (loadContextFiles fs home cfg now st opts).fst = .ok ⟨"", 0, [], []⟩ := by
  simp [loadContextFiles, h]

/-- Witness for C9 on a tree with no context files anywhere. -/
theorem claim9_empty_load_witness :
    (discover exEmpty exHome DEFAULT_CONTEXT_CONFIG 0 DiscoveryState.init
        ⟨exHome, [], none⟩).fst = [] ∧
      (loadContextFiles exEmpty exHome DEFAULT_CONTEXT_CONFIG 0
          DiscoveryState.init ⟨exHome, [], none⟩).fst =
        .ok ⟨"", 0, [], []⟩ :=
  ⟨by decide, claim9_empty_load exEmpty exHome DEFAULT_CONTEXT_CONFIG 0
    DiscoveryState.init ⟨exHome, [], none⟩ (by decide)⟩

theorem rapf_fold_oracle (fs : FsNode) (oracle : DirPath → Bool)
    (files : List ContextFileResult) :
    ∀ (acc : List ProcessedFile), (∀ g ∈ acc, oracle g.path = false) →
      ∀ g ∈ files.foldl (rapfStep fs (some oracle)) acc,
        oracle g.path = false := by
  induction files with
  | nil => intro acc hacc g hg; exact hacc g hg
  | cons f rest ih =>
    intro acc hacc g hg
    simp only [List.foldl_cons] at hg
    refine ih _ ?_ g hg
    intro g' hg'
    by_cases ho : oracle f.path = true
    · simp only [rapfStep, ho, if_true] at hg'
      exact hacc g' hg'
    · cases hr : readFileContent fs f.path with
      | none =>
        simp [rapfStep, ho, hr] at hg'
        exact hacc g' hg'
      | some content =>
        simp [rapfStep, ho, hr] at hg'
        rcases hg' with hg' | rfl
        · exact hacc g' hg'
        · simpa using ho

theorem readAndProcessFiles_oracle (fs : FsNode)
    (files : List ContextFileResult) (oracle : DirPath → Bool) :
    ∀ g ∈ readAndProcessFiles fs files (some oracle),
      oracle g.path = false := by
  intro g hg
  exact rapf_fold_oracle fs oracle files []
    (by intro g' h; simp at h) g hg

/-- Claim C10: `loadContextFiles` builds its `discoveryOptions` without
the caller's `fileService`, so discovery (and the scan inside it) runs
with no gitignore oracle; the oracle is consulted only per winning file
at read time, where a gitignored file is silently skipped from files,
fileCount, fileNames and content. -/
theorem claim10_gitignore_at_read (fs : FsNode) (home : DirPath)
    (cfg : ContextFileConfig) (now : Nat) (st : DiscoveryState)
    (wd : DirPath) (ext : List DirPath) (oracle : DirPath → Bool) :
    (loadContextFiles fs home cfg now st ⟨wd, ext, some oracle⟩).snd =
      (discover fs home cfg now st ⟨wd, ext, none⟩).snd ∧
      ∀ r, (loadContextFiles fs home cfg now st
          ⟨wd, ext, some oracle⟩).fst = .ok r →
        r.files = readAndProcessFiles fs
            (discover fs home cfg now st ⟨wd, ext, none⟩).fst
            (some oracle) ∧
          r.fileCount = r.files.length ∧
          r.fileNames = extractFileNames r.files ∧
          r.content = combineFileContents r.files wd ∧
          ∀ g ∈ r.files, oracle g.path = false := by
  constructor
  · by_cases h : (discover fs home cfg now st ⟨wd, ext, none⟩).fst = [] <;>
      simp [loadContextFiles, h]
  · intro r hr
    by_cases h : (discover fs home cfg now st ⟨wd, ext, none⟩).fst = []
    · simp [loadContextFiles, h] at hr
      subst hr
      refine ⟨by rw [h]; rfl, rfl, rfl, rfl, ?_⟩
      intro g hg
      simp at hg
    · simp [loadContextFiles, h] at hr
      subst hr
      refine ⟨rfl, rfl, rfl, rfl, ?_⟩
      intro g hg
      exact readAndProcessFiles_oracle fs _ oracle g hg

/-- Witness for C10 on the scenario tree with an oracle that gitignores
`proj/src/GEMINI.md`: discovery still returns that file, but the loaded
result keeps only the global `agents.md`. -/
theorem claim10_gitignore_at_read_witness :
    exOracle ["home", "user", "proj", "src", "GEMINI.md"] = true ∧
      (["home", "user", "proj", "src", "GEMINI.md"] ∈
        (discover exTree exHome DEFAULT_CONTEXT_CONFIG 0 DiscoveryState.init
          ⟨exWd, [], none⟩).fst.map ContextFileResult.path) ∧
      ∃ r, (loadContextFiles exTree exHome DEFAULT_CONTEXT_CONFIG 0
          DiscoveryState.init ⟨exWd, [], some exOracle⟩).fst = .ok r ∧
        r.fileCount = 1 ∧
        r.fileNames = ["agents.md"] ∧
        r.files.map (fun f => f.path) =
          [["home", "user", ".yelm", "agents.md"]] ∧
        ∀ g ∈ r.files, exOracle g.path = false := by
  refine ⟨by decide, by decide, ?_⟩
  have hok : (loadContextFiles exTree exHome DEFAULT_CONTEXT_CONFIG 0
      DiscoveryState.init ⟨exWd, [], some exOracle⟩).fst =
      .ok ⟨"--- Context from: ../../.yelm/agents.md ---\nglobal stuff" ++
          "\n--- End of Context from: ../../.yelm/agents.md ---", 1,
        [⟨⟨["home", "user", ".yelm", "agents.md"], "agents.md", 0, 10, -1⟩,
          "global stuff"⟩], ["agents.md"]⟩ := by decide
  refine ⟨_, hok, by decide, by decide, by decide, ?_⟩
  exact ((claim10_gitignore_at_read exTree exHome DEFAULT_CONTEXT_CONFIG 0
    DiscoveryState.init exWd [] exOracle).2 _ hok).2.2.2.2

/-- Claim C1 (refuted): on the specification's scenario tree the code
returns only 2 files — the global `agents.md` at level -1 and
`proj/src/GEMINI.md` at level 0.  `proj/CLAUDE.md` exists on disk but is
never returned: `discoverProjectFilesOptimized` only scans downward from
the working directory and has no upward walk, so `fileCount` is 2, not
the specified 3. -/
theorem claim1_code_divergence :
    ((discover exTree exHome DEFAULT_CONTEXT_CONFIG 0 DiscoveryState.init
        ⟨exWd, [], none⟩).fst.map fun r => (r.path, r.level)) =
      [(["home", "user", ".yelm", "agents.md"], -1),
        (["home", "user", "proj", "src", "GEMINI.md"], 0)] ∧
      ((loadContextFiles exTree exHome DEFAULT_CONTEXT_CONFIG 0
          DiscoveryState.init ⟨exWd, [], none⟩).fst.map
        ContextLoadResult.fileCount) = .ok 2 ∧
      (exTree.find ["home", "user", "proj", "CLAUDE.md"]).isSome = true ∧
      ∀ r ∈ (discover exTree exHome DEFAULT_CONTEXT_CONFIG 0
          DiscoveryState.init ⟨exWd, [], none⟩).fst,
        r.path ≠ ["home", "user", "proj", "CLAUDE.md"] :=
  ⟨by decide, by decide, by decide, by decide⟩

/-- Witness for the amended C4: the unreadable subdirectory `bad` is
skipped (its `agents.md` is not indexed) while the scan still succeeds;
a file root yields the plain error. -/
theorem claim4_amended_witness :
    scanDirectory exUnreadable [] exScanOpts2 =
      .ok ⟨[⟨["agents.md"], "agents.md", [], "agents.md", 5, 6, 0⟩], 2, 1,
        true⟩ ∧
      scanDirectory exFileNode [] exScanOpts2 =
        .error ⟨"Error", "Root path is not a directory: /", none⟩ := by
  refine ⟨?_, (claim4_amended exFileNode [] exScanOpts2).2.1 exFileNode
    (by rfl) (by decide)⟩
  have h := (claim4_amended exUnreadable [] exScanOpts2).2.2 exUnreadable
    (by rfl) (by decide)
  obtain ⟨r, hr⟩ := h
  rw [hr]
  have : r = ⟨[⟨["agents.md"], "agents.md", [], "agents.md", 5, 6, 0⟩], 2, 1,
      true⟩ := by
    have := hr.symm.trans (by decide :
      scanDirectory exUnreadable [] exScanOpts2 =
        .ok ⟨[⟨["agents.md"], "agents.md", [], "agents.md", 5, 6, 0⟩], 2, 1,
          true⟩)
    exact Except.ok.inj this
  rw [this]

end Yelm
